import Mathlib

/-!
Verification of the tag-aggregation, fuzzy-similarity and bulk tag-mutation
core of the `ploneapi-shell` repository (`ploneapi_shell/api.py` and
`ploneapi_shell/cli.py`), as a shallow embedding in Lean.

The remote Plone REST API, the `httpx` transport and the `thefuzz` string
metric are external collaborators: they are modelled as explicit environment
parameters (functions returning `Option`, where `none` models a raised
exception caught by the code under verification) and, for the string metric,
as an explicit `ratio` function parameter.
-/

namespace PloneShell

/-- A decoded JSON value, as produced by `response.json()` in `api.py`. -/
inductive JVal where
  | null
  | bool (b : Bool)
  | num (n : Int)
  | str (s : String)
  | arr (elems : List JVal)
  | obj (fields : List (String × JVal))

/-- A decoded JSON object (a Python `dict`), as an association list in key
insertion order. -/
abbrev Item := List (String × JVal)

/-- The Python membership test `k in v` on a decoded JSON value: key lookup on
dicts, element membership on lists, substring test on strings.  On the
remaining scalar values Python raises `TypeError`; those cases are modelled as
`false` (in `get_all_tags` such an exception is caught by the enclosing
handler and the item contributes nothing). -/
def pyIn (k : String) : JVal → Bool
  | .obj fields => fields.any (fun kv => kv.1 == k)
  | .arr elems => elems.any (fun v => match v with | .str s => s == k | _ => false)
  | .str s => s.toList.tails.any (fun t => k.toList.isPrefixOf t)
  | _ => false

/-- Python `v[k]` on a decoded JSON value.  Only dict indexing is meaningful;
the remaining cases (where Python would raise) are modelled as `null`. -/
def jIndex : JVal → String → JVal
  | .obj fields, k => (fields.lookup k).getD .null
  | _, _ => .null

/-- Python truthiness of a decoded JSON value. -/
def pyTruthy : JVal → Bool
  | .null => false
  | .bool b => b
  | .num n => n != 0
  | .str s => s != ""
  | .arr elems => !elems.isEmpty
  | .obj fields => !fields.isEmpty

/-- Python `str.strip()`: whitespace removed from both ends. -/
def pyStrip (s : String) : String :=
  String.mk (((s.toList.dropWhile Char.isWhitespace).reverse.dropWhile
    Char.isWhitespace).reverse)

/-- Iterating a decoded JSON value the way Python does: lists yield their
elements, strings yield one-character strings, dicts yield their keys; the
remaining values, where Python raises `TypeError`, yield nothing. -/
def pyIterList : JVal → List JVal
  | .arr elems => elems
  | .str s => s.toList.map (fun c => JVal.str (String.mk [c]))
  | .obj fields => fields.map (fun kv => JVal.str kv.1)
  | _ => []

/-- Tag-to-frequency mapping (`tag_counts` in `get_all_tags`), kept in Python
dict insertion order. -/
abbrev TagMap := List (String × Nat)

/-- `tag_counts[subject] = tag_counts.get(subject, 0) + 1` on a Python dict:
an existing key keeps its position, a new key is appended at the end. -/
def bump (m : TagMap) (s : String) : TagMap :=
  if m.any (fun kv => kv.1 == s) then
    m.map (fun kv => if kv.1 == s then (kv.1, kv.2 + 1) else kv)
  else m ++ [(s, 1)]

/-- The nested checks of `get_all_tags`:
`"@components" in item and "Subject" in item["@components"]`, giving
`item[outerKey]["Subject"]` when both hold. -/
def nestedSubject (item : Item) (outerKey : String) : Option JVal :=
  match item.lookup outerKey with
  | some comps => if pyIn "Subject" comps then some (jIndex comps "Subject") else none
  | none => none

/-- The field-priority `if`/`elif` chain of `get_all_tags` (api.py lines
649-673, repeated verbatim at lines 718-738, 786-807 and 871-890): `Subject`,
`subject`, `@components.Subject`, `metadata.Subject`, `subjects`, `keywords`,
`Keywords`, `tags`, `Tags`; the first matching branch supplies the raw
`subjects` value, `none` models the chain falling through with
`subjects = None`. -/
def selectSubjectsField (item : Item) : Option JVal :=
  (item.lookup "Subject").orElse fun _ =>
  (item.lookup "subject").orElse fun _ =>
  (nestedSubject item "@components").orElse fun _ =>
  (nestedSubject item "metadata").orElse fun _ =>
  (item.lookup "subjects").orElse fun _ =>
  (item.lookup "keywords").orElse fun _ =>
  (item.lookup "Keywords").orElse fun _ =>
  (item.lookup "tags").orElse fun _ =>
  item.lookup "Tags"

/-- Normalisation of the selected raw value (api.py lines 676-686): `None`
becomes `[]`; a bare string becomes a one-element list (the empty string is
falsy and becomes `[]`); a list stays as is; any other value goes through the
best-effort `list(subjects) if subjects else []` conversion, whose
`TypeError`/`ValueError` is swallowed to `[]` (so numbers and booleans give
`[]`, and a non-empty dict gives its list of keys). -/
def coerceSubjects : Option JVal → List JVal
  | none => []
  | some .null => []
  | some (.str s) => if s == "" then [] else [JVal.str s]
  | some (.arr elems) => elems
  | some (.obj fields) => if fields.isEmpty then [] else fields.map (fun kv => JVal.str kv.1)
  | some (.bool _) => []
  | some (.num _) => []

/-- `[s for s in subjects if s and isinstance(s, str) and s.strip()]`
(api.py line 689). -/
def keepStrs (elems : List JVal) : List String :=
  elems.filterMap (fun v => match v with
    | .str s => if s != "" && pyStrip s != "" then some s else none
    | _ => none)

/-- Subjects extracted from one content item by the aggregator. -/
def extractSubjects (item : Item) : List String :=
  keepStrs (coerceSubjects (selectSubjectsField item))

/-- The per-item counting loop (api.py lines 691-695): each surviving subject
is stripped and counted. -/
def countItem (m : TagMap) (item : Item) : TagMap :=
  (extractSubjects item).foldl
    (fun m s => let t := pyStrip s; if t == "" then m else bump m t) m

/-- The spec's ordered-strategy reading of the extraction chain: an ordered
list of extractor functions tried in sequence, the first hit winning. -/
def subjectExtractors : List (Item → Option JVal) :=
  [fun it => it.lookup "Subject",
   fun it => it.lookup "subject",
   fun it => nestedSubject it "@components",
   fun it => nestedSubject it "metadata",
   fun it => it.lookup "subjects",
   fun it => it.lookup "keywords",
   fun it => it.lookup "Keywords",
   fun it => it.lookup "tags",
   fun it => it.lookup "Tags"]

/-- Field selection as the spec words it: the first extractor in the ordered
strategy list that yields a value. -/
def selectSubjectsFieldSpec (item : Item) : Option JVal :=
  subjectExtractors.findSome? (fun f => f item)

theorem selectSubjectsField_eq_spec (item : Item) :
    selectSubjectsField item = selectSubjectsFieldSpec item := by
  simp only [selectSubjectsField, selectSubjectsFieldSpec, subjectExtractors,
    List.findSome?]
  cases item.lookup "Subject" <;>
    [skip; rfl] <;>
  cases item.lookup "subject" <;>
    [skip; rfl] <;>
  cases nestedSubject item "@components" <;>
    [skip; rfl] <;>
  cases nestedSubject item "metadata" <;>
    [skip; rfl] <;>
  cases item.lookup "subjects" <;>
    [skip; rfl] <;>
  cases item.lookup "keywords" <;>
    [skip; rfl] <;>
  cases item.lookup "Keywords" <;>
    [skip; rfl] <;>
  cases item.lookup "tags" <;>
    [skip; rfl] <;>
  cases item.lookup "Tags" <;> rfl

/-- C2: for every item, subjects are extracted from exactly the first present
field in the priority order Subject, subject, @components.Subject,
metadata.Subject, subjects, keywords, Keywords, tags, Tags (stated as equality
with the ordered-strategy selection); a bare string is coerced to a
one-element list, so an item `{"Subject": s}` with non-blank `s` contributes
count 1 for the trimmed `s` (in particular `{"Subject": "solo-tag"}` counts
`solo-tag` once); and only non-empty trimmed string entries survive
extraction. -/
theorem C2_field_priority_and_coercion :
    (∀ item : Item, selectSubjectsField item = selectSubjectsFieldSpec item)
  ∧ (∀ s : String, pyStrip s ≠ "" →
      countItem [] [("Subject", JVal.str s)] = [(pyStrip s, 1)])
  ∧ countItem [] [("Subject", JVal.str "solo-tag")] = [("solo-tag", 1)]
  ∧ (∀ item : Item, ∀ t ∈ extractSubjects item, t ≠ "" ∧ pyStrip t ≠ "") := by
  refine ⟨selectSubjectsField_eq_spec, ?_, by decide, ?_⟩
  · intro s hs
    have hne : s ≠ "" := by
      intro h; subst h; exact hs rfl
    simp only [countItem, extractSubjects]
    have h1 : selectSubjectsField [("Subject", JVal.str s)] = some (JVal.str s) := rfl
    rw [h1]
    simp only [coerceSubjects]
    rw [if_neg (by simpa using hne)]
    have h2 : keepStrs [JVal.str s] = [s] := by
      simp [keepStrs, hne, hs]
    rw [h2]
    simp only [List.foldl]
    rw [if_neg (by simpa using hs)]
    rfl
  · intro item t ht
    simp only [extractSubjects, keepStrs, List.mem_filterMap] at ht
    obtain ⟨v, -, hv⟩ := ht
    cases v with
    | null => exact Option.noConfusion hv
    | bool b => exact Option.noConfusion hv
    | num n => exact Option.noConfusion hv
    | arr elems => exact Option.noConfusion hv
    | obj fields => exact Option.noConfusion hv
    | str s =>
      have hv' : (if (s != "" && pyStrip s != "") = true then some s else none)
          = some t := hv
      by_cases h1 : (s != "" && pyStrip s != "") = true
      · rw [if_pos h1] at hv'
        obtain rfl : s = t := Option.some.inj hv'
        simp only [Bool.and_eq_true, bne_iff_ne] at h1
        exact h1
      · rw [if_neg h1] at hv'
        exact Option.noConfusion hv'

/-- Witness for C2 at a concrete input: a padded bare-string subject is
trimmed and counted once. -/
theorem C2_witness :
    countItem [] [("Subject", JVal.str "  solo-tag  ")] = [("solo-tag", 1)] := by
  have h := C2_field_priority_and_coercion.2.1 "  solo-tag  " (by decide)
  have he : pyStrip "  solo-tag  " = "solo-tag" := by decide
  rw [he] at h
  exact h

/-! ## Similarity matcher (`find_similar_tags`, api.py lines 1190-1246)

The `thefuzz` string metric is an external library; the matcher is embedded
with the metric as an explicit `ratio` parameter.  A concrete executable
metric `fuzzRatio` (the Indel-based normalized similarity used by
`fuzz.ratio`, i.e. `round(200·LCS(a,b)/(|a|+|b|))`) is provided for concrete
evaluations. -/

/-- Python `str.lower()`. -/
def pyLower (s : String) : String :=
  String.mk (s.toList.map Char.toLower)

/-- Longest common subsequence length with explicit fuel (the fuel is always
at least the sum of the list lengths, so it never runs out). -/
def lcsFuel : Nat → List Char → List Char → Nat
  | 0, _, _ => 0
  | _ + 1, [], _ => 0
  | _ + 1, _ :: _, [] => 0
  | fuel + 1, a :: as, b :: bs =>
      if a = b then lcsFuel fuel as bs + 1
      else max (lcsFuel fuel (a :: as) bs) (lcsFuel fuel as (b :: bs))

/-- Longest common subsequence length of two character lists. -/
def lcs (xs ys : List Char) : Nat := lcsFuel (xs.length + ys.length) xs ys

/-- `fuzz.ratio` from the `thefuzz` library: the Indel-based normalized
similarity `round(100·(1 − dist/(|a|+|b|))) = round(200·LCS/(|a|+|b|))`,
rounded half-up, with two empty strings scoring 100. -/
def fuzzRatio (a b : String) : Nat :=
  if a.toList.length + b.toList.length = 0 then 100
  else (2 * (200 * lcs a.toList b.toList) + (a.toList.length + b.toList.length)) /
       (2 * (a.toList.length + b.toList.length))

theorem lcsFuel_self (l : List Char) : ∀ n, 2 * l.length ≤ n → lcsFuel n l l = l.length := by
  induction l with
  | nil => intro n _; cases n <;> rfl
  | cons a as ih =>
    intro n hn
    match n, hn with
    | m + 1, hn =>
      have h1 : lcsFuel (m + 1) (a :: as) (a :: as) = lcsFuel m as as + 1 := by
        simp [lcsFuel]
      rw [h1, ih m (by simp at hn; omega)]
      rfl

theorem fuzzRatio_self (s : String) : fuzzRatio s s = 100 := by
  unfold fuzzRatio lcs
  rcases h : s.toList with _ | ⟨a, as⟩
  · simp
  · rw [if_neg (by simp)]
    have hfuel : lcsFuel ((a :: as).length + (a :: as).length) (a :: as) (a :: as)
        = (a :: as).length := lcsFuel_self (a :: as) _ (by omega)
    rw [hfuel]
    generalize hk : (a :: as).length = k
    have hpos : 0 < k := by rw [← hk]; simp
    have hB : 0 < 2 * (k + k) := by omega
    have h2 : 2 * (200 * k) + (k + k) = 2 * (k + k) * 100 + (k + k) := by ring
    rw [h2, Nat.mul_add_div hB, Nat.div_eq_of_lt (by omega)]

theorem lcsFuel_symm : ∀ n xs ys, lcsFuel n xs ys = lcsFuel n ys xs := by
  intro n
  induction n with
  | zero => intro xs ys; rfl
  | succ m ih =>
    intro xs ys
    match xs, ys with
    | [], [] => rfl
    | [], _ :: _ => rfl
    | _ :: _, [] => rfl
    | a :: as, b :: bs =>
      simp only [lcsFuel]
      by_cases hab : a = b
      · subst hab
        rw [if_pos rfl, if_pos rfl]
        rw [ih as bs]
      · rw [if_neg hab, if_neg (fun h => hab h.symm)]
        rw [ih (a :: as) bs, ih as (b :: bs)]
        exact Nat.max_comm _ _

theorem fuzzRatio_symm (a b : String) : fuzzRatio a b = fuzzRatio b a := by
  unfold fuzzRatio lcs
  rw [lcsFuel_symm, Nat.add_comm a.toList.length b.toList.length]

/-- One record of `find_similar_tags`' result list: the tuple
`(tag_name, frequency, similarity_score, matched_tag)`. -/
structure SimResult where
  tag : String
  freq : Nat
  score : Nat
  matched : Option String
deriving DecidableEq

/-- The ascending order of the Python sort key
`(-similarity, -frequency, tag.lower())` used at api.py lines 1223 and 1244. -/
def simLE (a b : SimResult) : Prop :=
  b.score < a.score ∨ (a.score = b.score ∧
    (b.freq < a.freq ∨ (a.freq = b.freq ∧ pyLower a.tag ≤ pyLower b.tag)))

instance : DecidableRel simLE := fun a b => by
  unfold simLE; infer_instance

theorem simLE_total (a b : SimResult) : simLE a b ∨ simLE b a := by
  unfold simLE
  rcases Nat.lt_trichotomy a.score b.score with h | h | h
  · exact Or.inr (Or.inl h)
  · rcases Nat.lt_trichotomy a.freq b.freq with h2 | h2 | h2
    · exact Or.inr (Or.inr ⟨h.symm, Or.inl h2⟩)
    · rcases le_total (pyLower a.tag) (pyLower b.tag) with h3 | h3
      · exact Or.inl (Or.inr ⟨h, Or.inr ⟨h2, h3⟩⟩)
      · exact Or.inr (Or.inr ⟨h.symm, Or.inr ⟨h2.symm, h3⟩⟩)
    · exact Or.inl (Or.inr ⟨h, Or.inl h2⟩)
  · exact Or.inl (Or.inl h)

theorem simLE_trans (a b c : SimResult) (h1 : simLE a b) (h2 : simLE b c) : simLE a c := by
  unfold simLE at h1 h2 ⊢
  rcases h1 with h1 | ⟨e1, h1⟩
  · rcases h2 with h2 | ⟨e2, _⟩
    · exact Or.inl (h2.trans h1)
    · exact Or.inl (by omega)
  · rcases h2 with h2 | ⟨e2, h2⟩
    · exact Or.inl (by omega)
    · refine Or.inr ⟨e1.trans e2, ?_⟩
      rcases h1 with h1 | ⟨f1, h1⟩
      · rcases h2 with h2 | ⟨f2, _⟩
        · exact Or.inl (h2.trans h1)
        · exact Or.inl (by omega)
      · rcases h2 with h2 | ⟨f2, h2⟩
        · exact Or.inl (by omega)
        · exact Or.inr ⟨f1.trans f2, h1.trans h2⟩

instance : IsTotal SimResult simLE := ⟨simLE_total⟩

instance : IsTrans SimResult simLE := ⟨simLE_trans⟩

/-- The sort key as a value (similarity, frequency, lower-cased tag);
two results collide in the sort exactly when their keys agree. -/
def simKey (r : SimResult) : Nat × Nat × String :=
  (r.score, r.freq, pyLower r.tag)

theorem simLE_of_key_eq {a b : SimResult} (h : simKey a = simKey b) : simLE a b := by
  unfold simKey at h
  obtain ⟨h1, h2, h3⟩ : a.score = b.score ∧ a.freq = b.freq ∧ pyLower a.tag = pyLower b.tag := by
    refine ⟨congrArg Prod.fst h, ?_, ?_⟩
    · exact congrArg (fun p => p.2.1) h
    · exact congrArg (fun p => p.2.2) h
  exact Or.inr ⟨h1, Or.inr ⟨h2, le_of_eq h3⟩⟩

/-- Mode 1 of `find_similar_tags` (api.py lines 1211-1221), before sorting:
one candidate per map entry whose similarity to the query reaches the
threshold, in map insertion order. -/
def mode1Candidates (ratio : String → String → Nat) (tagCounts : TagMap)
    (queryTag : String) (threshold : Nat) : List SimResult :=
  tagCounts.filterMap (fun tc =>
    let s := ratio (pyLower queryTag) (pyLower tc.1)
    if threshold ≤ s then some ⟨tc.1, tc.2, s, none⟩ else none)

/-- The i-before-j double loop of Mode 2 (api.py lines 1231-1232):
`tag_list[i]` paired with every later entry. -/
def pairsOf : List α → List (α × α)
  | [] => []
  | x :: xs => xs.map (fun y => (x, y)) ++ pairsOf xs

/-- Mode 2 of `find_similar_tags` (api.py lines 1227-1241), before sorting:
one candidate per qualifying ordered-by-iteration pair, reporting the
higher-frequency member (`count1 >= count2` prefers the first-listed). -/
def mode2Candidates (ratio : String → String → Nat) (tagCounts : TagMap)
    (threshold : Nat) : List SimResult :=
  (pairsOf tagCounts).filterMap (fun pq =>
    let s := ratio (pyLower pq.1.1) (pyLower pq.2.1)
    if threshold ≤ s then
      some (if pq.2.2 ≤ pq.1.2 then ⟨pq.1.1, pq.1.2, s, some pq.2.1⟩
            else ⟨pq.2.1, pq.2.2, s, some pq.1.1⟩)
    else none)

/-- The candidate list in generation order for either mode (`query_tag` is
truthy exactly when it is a non-empty string). -/
def modeCandidates (ratio : String → String → Nat) (tagCounts : TagMap)
    (queryTag : Option String) (threshold : Nat) : List SimResult :=
  match queryTag with
  | some q =>
    if q == "" then mode2Candidates ratio tagCounts threshold
    else mode1Candidates ratio tagCounts q threshold
  | none => mode2Candidates ratio tagCounts threshold

/-- `find_similar_tags` (api.py lines 1190-1246) with the tag map already
aggregated (the function obtains it from `get_all_tags`) and the `thefuzz`
metric abstracted as `ratio`: empty maps short-circuit to `[]`, otherwise the
mode's candidates are sorted by the stable Python sort with key
`(-similarity, -frequency, tag.lower())`. -/
def find_similar_tags (ratio : String → String → Nat) (tagCounts : TagMap)
    (queryTag : Option String) (threshold : Nat) : List SimResult :=
  if tagCounts.isEmpty then []
  else List.insertionSort simLE (modeCandidates ratio tagCounts queryTag threshold)

/-! ### Stability of the sort

Python's `list.sort` is stable; `List.insertionSort` with a total transitive
relation is stable in the same sense.  This is captured by showing that the
sort does not reorder elements within one key-equivalence class. -/

theorem filter_orderedInsert_pos (r : α → α → Prop) [DecidableRel r] (p : α → Bool)
    (a : α) (l : List α) (h : ∀ b, p b = true → r a b) (ha : p a = true) :
    (List.orderedInsert r a l).filter p = a :: l.filter p := by
  induction l with
  | nil => simp [List.orderedInsert, ha]
  | cons b l ih =>
    by_cases hrab : r a b
    · simp [List.orderedInsert, hrab, List.filter_cons, ha]
    · have hpb : p b = false := by
        cases hpb : p b
        · rfl
        · exact absurd (h b hpb) hrab
      simp [List.orderedInsert, hrab, List.filter_cons, hpb, ih]

theorem filter_orderedInsert_neg (r : α → α → Prop) [DecidableRel r] (p : α → Bool)
    (a : α) (l : List α) (ha : p a = false) :
    (List.orderedInsert r a l).filter p = l.filter p := by
  induction l with
  | nil => simp [List.orderedInsert, ha]
  | cons b l ih =>
    by_cases hrab : r a b
    · simp [List.orderedInsert, hrab, List.filter_cons, ha]
    · simp [List.orderedInsert, hrab, List.filter_cons, ih]

theorem filter_insertionSort_eq (r : α → α → Prop) [DecidableRel r] (p : α → Bool)
    (hp : ∀ x y, p x = true → p y = true → r x y) :
    ∀ l : List α, (List.insertionSort r l).filter p = l.filter p := by
  intro l
  induction l with
  | nil => rfl
  | cons a l ih =>
    simp only [List.insertionSort]
    cases ha : p a
    · rw [filter_orderedInsert_neg r p a _ ha, ih, List.filter_cons, ha]
      simp
    · rw [filter_orderedInsert_pos r p a _ (fun b hb => hp a b ha hb) ha, ih,
        List.filter_cons, ha]
      simp

/-- C3: the result of `find_similar_tags` is sorted by descending similarity,
then descending frequency, then ascending case-insensitive tag name; that
triple-key order is total (hence the output order is deterministic); and
results with identical triple keys keep the order in which the mode's
iteration over the tag map generated them (Mode 1 generates one candidate per
map entry in insertion order, Mode 2 one candidate per pair in the insertion
order of the two nested loops). -/
theorem C3_ordering (ratio : String → String → Nat) (m : TagMap)
    (q : Option String) (th : Nat) :
    List.Sorted simLE (find_similar_tags ratio m q th)
  ∧ (∀ a b : SimResult, simLE a b ∨ simLE b a)
  ∧ ∀ k : Nat × Nat × String,
      (find_similar_tags ratio m q th).filter (fun r => decide (simKey r = k))
        = (modeCandidates ratio m q th).filter (fun r => decide (simKey r = k)) := by
  refine ⟨?_, simLE_total, ?_⟩
  · unfold find_similar_tags
    by_cases hm : m.isEmpty
    · simp [hm]
    · simp only [hm, Bool.false_eq_true, if_false]
      exact List.sorted_insertionSort simLE _
  · intro k
    unfold find_similar_tags
    by_cases hm : m.isEmpty
    · have hm' : m = [] := List.isEmpty_iff.mp hm
      subst hm'
      simp only [hm, if_true]
      rcases q with _ | qs
      · simp [modeCandidates, mode2Candidates, pairsOf]
      · by_cases hqs : (qs == "") = true <;>
          simp [modeCandidates, mode1Candidates, mode2Candidates, pairsOf, hqs]
    · simp only [hm, Bool.false_eq_true, if_false]
      refine filter_insertionSort_eq simLE _ ?_ _
      intro x y hx hy
      exact simLE_of_key_eq ((of_decide_eq_true hx).trans (of_decide_eq_true hy).symm)

theorem mem_find_similar_tags_mode1 {ratio : String → String → Nat} {m : TagMap}
    {q : String} {th : Nat} (hq : q ≠ "") {r : SimResult} :
    r ∈ find_similar_tags ratio m (some q) th ↔ r ∈ mode1Candidates ratio m q th := by
  by_cases hm : m.isEmpty
  · have hm' : m = [] := List.isEmpty_iff.mp hm
    subst hm'
    simp [find_similar_tags, modeCandidates, mode1Candidates]
  · simp only [find_similar_tags, modeCandidates, hm, Bool.false_eq_true, if_false]
    rw [if_neg (by simpa using hq)]
    exact List.mem_insertionSort simLE

/-- C4: in Mode 1 (query tag `q` given) the result consists of exactly the
map's tags whose lower-cased similarity to the lower-cased query reaches the
threshold; every returned tuple carries `matched = None`, its frequency from
the map, and the computed score; and whenever `q` itself is a key of the map
it is returned with similarity 100 (for any metric scoring identical strings
100, and any threshold at most 100). -/
theorem C4_mode1_query (ratio : String → String → Nat) (m : TagMap)
    (q : String) (th : Nat) (hq : q ≠ "") (hth : th ≤ 100)
    (hrefl : ∀ s, ratio s s = 100) :
    (∀ r ∈ find_similar_tags ratio m (some q) th,
        r.matched = none ∧ th ≤ r.score
          ∧ r.score = ratio (pyLower q) (pyLower r.tag) ∧ (r.tag, r.freq) ∈ m)
  ∧ (∀ t c, (t, c) ∈ m → th ≤ ratio (pyLower q) (pyLower t) →
        (⟨t, c, ratio (pyLower q) (pyLower t), none⟩ : SimResult)
          ∈ find_similar_tags ratio m (some q) th)
  ∧ (∀ c, (q, c) ∈ m →
        (⟨q, c, 100, none⟩ : SimResult) ∈ find_similar_tags ratio m (some q) th) := by
  have hmem : ∀ r : SimResult, r ∈ mode1Candidates ratio m q th ↔
      ∃ tc ∈ m, th ≤ ratio (pyLower q) (pyLower tc.1)
        ∧ r = ⟨tc.1, tc.2, ratio (pyLower q) (pyLower tc.1), none⟩ := by
    intro r
    unfold mode1Candidates
    rw [List.mem_filterMap]
    constructor
    · rintro ⟨tc, htc, hr⟩
      by_cases hcond : th ≤ ratio (pyLower q) (pyLower tc.1)
      · rw [if_pos hcond] at hr
        exact ⟨tc, htc, hcond, (Option.some.inj hr).symm⟩
      · rw [if_neg hcond] at hr
        exact Option.noConfusion hr
    · rintro ⟨tc, htc, hcond, hr⟩
      exact ⟨tc, htc, by rw [if_pos hcond, hr]⟩
  refine ⟨?_, ?_, ?_⟩
  · intro r hr
    rw [mem_find_similar_tags_mode1 hq, hmem] at hr
    obtain ⟨tc, htc, hcond, rfl⟩ := hr
    exact ⟨rfl, hcond, rfl, htc⟩
  · intro t c htc hcond
    rw [mem_find_similar_tags_mode1 hq, hmem]
    exact ⟨(t, c), htc, hcond, rfl⟩
  · intro c hqc
    rw [mem_find_similar_tags_mode1 hq, hmem]
    exact ⟨(q, c), hqc, by rw [hrefl]; exact hth, by rw [hrefl]⟩

/-- Witness for C4 at a concrete input: with the map
`{"cats": 5, "cat": 3, "dogs": 2}`, query `"cat"` and threshold 80 under the
`fuzz.ratio` metric, the query itself is returned at similarity 100, `"cats"`
is returned at its computed similarity 86, and `"dogs"` is excluded. -/
theorem C4_witness :
    (⟨"cat", 3, 100, none⟩ : SimResult)
        ∈ find_similar_tags fuzzRatio [("cats", 5), ("cat", 3), ("dogs", 2)] (some "cat") 80
  ∧ (⟨"cats", 5, fuzzRatio (pyLower "cat") (pyLower "cats"), none⟩ : SimResult)
        ∈ find_similar_tags fuzzRatio [("cats", 5), ("cat", 3), ("dogs", 2)] (some "cat") 80
  ∧ ∀ r ∈ find_similar_tags fuzzRatio [("cats", 5), ("cat", 3), ("dogs", 2)] (some "cat") 80,
      r.tag ≠ "dogs" := by
  have h := C4_mode1_query fuzzRatio [("cats", 5), ("cat", 3), ("dogs", 2)] "cat" 80
    (by decide) (by decide) fuzzRatio_self
  refine ⟨h.2.2 3 (by decide), h.2.1 "cats" 5 (by decide) (by decide), ?_⟩
  intro r hr
  obtain ⟨-, hscore, hs, -⟩ := h.1 r hr
  intro htag
  rw [htag] at hs
  rw [hs] at hscore
  revert hscore
  decide

/-! ### Mode 2: one result per unordered pair -/

theorem mem_pairsOf {l : List α} {p : α × α} (h : p ∈ pairsOf l) :
    p.1 ∈ l ∧ p.2 ∈ l := by
  induction l with
  | nil => simp [pairsOf] at h
  | cons x xs ih =>
    simp only [pairsOf, List.mem_append, List.mem_map] at h
    rcases h with ⟨y, hy, rfl⟩ | h
    · exact ⟨List.mem_cons_self x xs, List.mem_cons_of_mem x hy⟩
    · obtain ⟨h1, h2⟩ := ih h
      exact ⟨List.mem_cons_of_mem x h1, List.mem_cons_of_mem x h2⟩

theorem two_mul_length_pairsOf (l : List α) :
    2 * (pairsOf l).length = l.length * (l.length - 1) := by
  induction l with
  | nil => rfl
  | cons x xs ih =>
    simp only [pairsOf, List.length_append, List.length_map, List.length_cons,
      Nat.add_sub_cancel]
    cases hxl : xs.length with
    | zero =>
      rw [hxl] at ih
      omega
    | succ j =>
      rw [hxl] at ih
      have ih2 : 2 * (pairsOf xs).length = j * j + j := by
        rw [ih]
        have : j + 1 - 1 = j := rfl
        rw [this]
        ring
      have hg : (j + 1 + 1) * (j + 1) = j * j + 3 * j + 2 := by ring
      rw [hg]
      generalize j * j = a at ih2 ⊢
      omega

/-- The unordered-pair key test: the pair of map entries carries exactly the
keys `t1` and `t2` (in either order). -/
def pairKeyPred (t1 t2 : String) (pq : (String × Nat) × (String × Nat)) : Bool :=
  (pq.1.1 == t1 && pq.2.1 == t2) || (pq.1.1 == t2 && pq.2.1 == t1)

theorem countP_key_entries (xs : List (String × Nat)) (t : String)
    (hnd : (xs.map Prod.fst).Nodup) (ht : t ∈ xs.map Prod.fst) :
    xs.countP (fun y => y.1 == t) = 1 := by
  have h1 : xs.countP (fun y => y.1 == t) = (xs.map Prod.fst).countP (fun s => s == t) := by
    rw [List.countP_map]
    rfl
  have h2 : (xs.map Prod.fst).countP (fun s => s == t) = (xs.map Prod.fst).count t := rfl
  rw [h1, h2]
  exact List.count_eq_one_of_mem hnd ht

theorem countP_pairsOf_pairKey (l : List (String × Nat))
    (hnd : (l.map Prod.fst).Nodup) (t1 t2 : String)
    (h1 : t1 ∈ l.map Prod.fst) (h2 : t2 ∈ l.map Prod.fst) (hne : t1 ≠ t2) :
    (pairsOf l).countP (pairKeyPred t1 t2) = 1 := by
  induction l with
  | nil => simp at h1
  | cons x xs ih =>
    simp only [pairsOf, List.countP_append, List.countP_map]
    simp only [List.map_cons, List.nodup_cons] at hnd
    obtain ⟨hx_notin, hnd_xs⟩ := hnd
    by_cases hx1 : x.1 = t1
    · have hmap : xs.countP (pairKeyPred t1 t2 ∘ fun y => (x, y))
          = xs.countP (fun y => y.1 == t2) := by
        apply List.countP_congr
        intro y _
        simp [pairKeyPred, Function.comp, hx1, hne]
      have hrest : (pairsOf xs).countP (pairKeyPred t1 t2) = 0 := by
        rw [List.countP_eq_zero]
        intro pq hpq
        obtain ⟨hp1, hp2⟩ := mem_pairsOf hpq
        have hn1 : pq.1.1 ≠ t1 := by
          intro h
          apply hx_notin
          rw [hx1, ← h]
          exact List.mem_map_of_mem Prod.fst hp1
        have hn2 : pq.2.1 ≠ t1 := by
          intro h
          apply hx_notin
          rw [hx1, ← h]
          exact List.mem_map_of_mem Prod.fst hp2
        simp [pairKeyPred, hn1, hn2]
      have ht2 : t2 ∈ xs.map Prod.fst := by
        rcases List.mem_cons.mp h2 with h | h
        · exact absurd (hx1.symm.trans h.symm) hne
        · exact h
      rw [hmap, hrest, countP_key_entries xs t2 hnd_xs ht2]
    · by_cases hx2 : x.1 = t2
      · have hmap : xs.countP (pairKeyPred t1 t2 ∘ fun y => (x, y))
            = xs.countP (fun y => y.1 == t1) := by
          apply List.countP_congr
          intro y _
          simp [pairKeyPred, Function.comp, hx2, Ne.symm hne]
        have hrest : (pairsOf xs).countP (pairKeyPred t1 t2) = 0 := by
          rw [List.countP_eq_zero]
          intro pq hpq
          obtain ⟨hp1, hp2⟩ := mem_pairsOf hpq
          have hn1 : pq.1.1 ≠ t2 := by
            intro h
            apply hx_notin
            rw [hx2, ← h]
            exact List.mem_map_of_mem Prod.fst hp1
          have hn2 : pq.2.1 ≠ t2 := by
            intro h
            apply hx_notin
            rw [hx2, ← h]
            exact List.mem_map_of_mem Prod.fst hp2
          simp [pairKeyPred, hn1, hn2]
        have ht1 : t1 ∈ xs.map Prod.fst := by
          rcases List.mem_cons.mp h1 with h | h
          · exact absurd (hx2.symm.trans h.symm) (Ne.symm hne)
          · exact h
        rw [hmap, hrest, countP_key_entries xs t1 hnd_xs ht1]
      · have hmap : xs.countP (pairKeyPred t1 t2 ∘ fun y => (x, y)) = 0 := by
          rw [List.countP_eq_zero]
          intro y _
          simp [pairKeyPred, Function.comp, hx1, hx2]
        have ht1 : t1 ∈ xs.map Prod.fst := by
          rcases List.mem_cons.mp h1 with h | h
          · exact absurd h.symm hx1
          · exact h
        have ht2 : t2 ∈ xs.map Prod.fst := by
          rcases List.mem_cons.mp h2 with h | h
          · exact absurd h.symm hx2
          · exact h
        rw [hmap, ih hnd_xs ht1 ht2, Nat.zero_add]

/-- C1: in Mode 2 (no query tag), over a map with distinct keys and a
symmetric metric, the result has at most `n·(n−1)/2` entries; every result
comes from a qualifying iteration-ordered pair and reports the
higher-frequency member as `tag`/`frequency` (the first-listed member when
frequencies tie) with the other member as `matched`; and each unordered pair
of distinct keys whose similarity reaches the threshold is reported by
exactly one result tuple. -/
theorem C1_mode2_unordered_pairs (ratio : String → String → Nat) (m : TagMap)
    (th : Nat) (hnd : (m.map Prod.fst).Nodup)
    (hsym : ∀ a b, ratio a b = ratio b a) :
    (find_similar_tags ratio m none th).length ≤ m.length * (m.length - 1) / 2
  ∧ (∀ r ∈ find_similar_tags ratio m none th,
      ∃ c2 t2, r.matched = some t2 ∧ (r.tag, r.freq) ∈ m ∧ (t2, c2) ∈ m
        ∧ c2 ≤ r.freq ∧ th ≤ r.score
        ∧ r.score = ratio (pyLower r.tag) (pyLower t2)
        ∧ (((r.tag, r.freq), (t2, c2)) ∈ pairsOf m
            ∨ ((t2, c2), (r.tag, r.freq)) ∈ pairsOf m)
        ∧ (r.freq = c2 → ((r.tag, r.freq), (t2, c2)) ∈ pairsOf m))
  ∧ (∀ t1 c1 t2 c2, (t1, c1) ∈ m → (t2, c2) ∈ m → t1 ≠ t2 →
      th ≤ ratio (pyLower t1) (pyLower t2) →
      (find_similar_tags ratio m none th).countP
        (fun r => (r.tag == t1 && r.matched == some t2)
          || (r.tag == t2 && r.matched == some t1)) = 1) := by
  have hperm : (find_similar_tags ratio m none th).Perm (mode2Candidates ratio m th) := by
    by_cases hm : m.isEmpty
    · have hm' : m = [] := List.isEmpty_iff.mp hm
      subst hm'
      simp [find_similar_tags, modeCandidates, mode2Candidates, pairsOf]
    · simp only [find_similar_tags, modeCandidates, hm, Bool.false_eq_true, if_false]
      exact List.perm_insertionSort simLE _
  refine ⟨?_, ?_, ?_⟩
  · have h2l := two_mul_length_pairsOf m
    have hle : (mode2Candidates ratio m th).length ≤ (pairsOf m).length := by
      unfold mode2Candidates
      exact List.length_filterMap_le _ _
    have hlen := hperm.length_eq
    generalize m.length * (m.length - 1) = A at h2l ⊢
    omega
  · intro r hr
    have hr' : r ∈ mode2Candidates ratio m th := hperm.mem_iff.mp hr
    unfold mode2Candidates at hr'
    rw [List.mem_filterMap] at hr'
    obtain ⟨pq, hpq, heq⟩ := hr'
    by_cases hcond : th ≤ ratio (pyLower pq.1.1) (pyLower pq.2.1)
    · rw [if_pos hcond] at heq
      by_cases hc : pq.2.2 ≤ pq.1.2
      · rw [if_pos hc] at heq
        obtain rfl := Option.some.inj heq
        refine ⟨pq.2.2, pq.2.1, rfl, (mem_pairsOf hpq).1, (mem_pairsOf hpq).2,
          hc, hcond, rfl, Or.inl hpq, fun _ => hpq⟩
      · rw [if_neg hc] at heq
        obtain rfl := Option.some.inj heq
        refine ⟨pq.1.2, pq.1.1, rfl, (mem_pairsOf hpq).2, (mem_pairsOf hpq).1,
          le_of_lt (lt_of_not_le hc), hcond, hsym _ _, Or.inr hpq,
          fun hEq => absurd hEq.le hc⟩
    · rw [if_neg hcond] at heq
      exact Option.noConfusion heq
  · intro t1 c1 t2 c2 h1 h2 hne hth
    rw [hperm.countP_eq]
    unfold mode2Candidates
    rw [List.countP_filterMap]
    refine (List.countP_congr ?_).trans
      (countP_pairsOf_pairKey m hnd t1 t2 (List.mem_map_of_mem Prod.fst h1)
        (List.mem_map_of_mem Prod.fst h2) hne)
    intro pq _
    by_cases hcond : th ≤ ratio (pyLower pq.1.1) (pyLower pq.2.1)
    · rw [if_pos hcond]
      by_cases hc : pq.2.2 ≤ pq.1.2
      · rw [if_pos hc]
        simp only [Option.map_some', Option.getD_some, pairKeyPred, Bool.or_eq_true,
          Bool.and_eq_true, beq_iff_eq, Option.some.injEq]
      · rw [if_neg hc]
        simp only [Option.map_some', Option.getD_some, pairKeyPred, Bool.or_eq_true,
          Bool.and_eq_true, beq_iff_eq, Option.some.injEq]
        tauto
    · rw [if_neg hcond]
      cases hk : pairKeyPred t1 t2 pq
      · simp
      · exfalso
        simp only [pairKeyPred, Bool.or_eq_true, Bool.and_eq_true, beq_iff_eq] at hk
        rcases hk with ⟨ha, hb⟩ | ⟨ha, hb⟩
        · exact hcond (ha ▸ hb ▸ hth)
        · exact hcond (ha ▸ hb ▸ (hsym (pyLower t1) (pyLower t2) ▸ hth))

/-- Witness for C1 at a concrete input: with the map
`{"cats": 5, "cat": 3}` under the `fuzz.ratio` metric and threshold 80, the
qualifying pair is reported by exactly one tuple, and the result has at most
one entry. -/
theorem C1_witness :
    (find_similar_tags fuzzRatio [("cats", 5), ("cat", 3)] none 80).countP
      (fun r => (r.tag == "cats" && r.matched == some "cat")
        || (r.tag == "cat" && r.matched == some "cats")) = 1
  ∧ (find_similar_tags fuzzRatio [("cats", 5), ("cat", 3)] none 80).length ≤ 1 := by
  have h := C1_mode2_unordered_pairs fuzzRatio [("cats", 5), ("cat", 3)] 80
    (by decide) fuzzRatio_symm
  exact ⟨h.2.2 "cats" 5 "cat" 3 (by decide) (by decide) (by decide) (by decide), h.1⟩

/-! ## Tag aggregator (`get_all_tags`, api.py lines 566-924) and the search
helper (`search_by_subject`, api.py lines 501-563)

The remote server is the environment: `firstPage` is the initial search
response (`none` models the request raising), `page off` the paginated
response at offset `b_start = off`, and `fetch url` an individual item or
container fetch (`none` models any raised exception on that request). -/

structure NetEnv where
  firstPage : Option (List Item × Option Nat)
  page : Nat → Option (List Item)
  fetch : String → Option Item

/-- The pagination loop shared by `search_by_subject`/`search_by_type`
(api.py lines 536-555): continue while `items_total > len(all_items)` and
`len(all_items) < 10000`; a raised page request propagates (`.error`), an
empty page stops, a page shorter than the requested `b_size = 1000` stops
after extending. -/
def sbsLoop (env : NetEnv) (total : Nat) (acc : List Item) : Except Unit (List Item) :=
  if h : total > acc.length ∧ acc.length < 10000 then
    match env.page acc.length with
    | none => .error ()
    | some p =>
      if hp0 : p.isEmpty then .ok acc
      else if p.length < 1000 then .ok (acc ++ p)
      else sbsLoop env total (acc ++ p)
  else .ok acc
termination_by 10000 - acc.length
decreasing_by
  simp only [List.length_append]
  have hp : p ≠ [] := fun hnil => hp0 (by simp [hnil])
  have hlen : 0 < p.length := List.length_pos.mpr hp
  omega

theorem sbsLoop_eq (env : NetEnv) (total : Nat) (acc : List Item) :
    sbsLoop env total acc =
      if total > acc.length ∧ acc.length < 10000 then
        match env.page acc.length with
        | none => .error ()
        | some p =>
          if p.isEmpty then .ok acc
          else if p.length < 1000 then .ok (acc ++ p)
          else sbsLoop env total (acc ++ p)
      else .ok acc := by
  rw [sbsLoop]
  simp only [dite_eq_ite]

theorem sbsLoop_stop (env : NetEnv) (total : Nat) (acc : List Item)
    (h : ¬(total > acc.length ∧ acc.length < 10000)) :
    sbsLoop env total acc = .ok acc := by
  rw [sbsLoop_eq, if_neg h]

theorem sbsLoop_err (env : NetEnv) (total : Nat) (acc : List Item)
    (hg : total > acc.length ∧ acc.length < 10000)
    (hp : env.page acc.length = none) :
    sbsLoop env total acc = .error () := by
  rw [sbsLoop_eq, if_pos hg, hp]

theorem sbsLoop_page (env : NetEnv) (total : Nat) (acc p : List Item)
    (hg : total > acc.length ∧ acc.length < 10000)
    (hp : env.page acc.length = some p) :
    sbsLoop env total acc =
      if p.isEmpty then .ok acc
      else if p.length < 1000 then .ok (acc ++ p)
      else sbsLoop env total (acc ++ p) := by
  rw [sbsLoop_eq, if_pos hg, hp]

/-- `search_by_subject` (api.py lines 501-563): first page, then the
pagination loop with `items_total = data.get("items_total", len(items))`;
a raised initial request becomes an `APIError` (`.error`). -/
def search_by_subject (env : NetEnv) : Except Unit (List Item) :=
  match env.firstPage with
  | none => .error ()
  | some (items, totalOpt) => sbsLoop env (totalOpt.getD items.length) items

/-- The pagination-and-count loop of `get_all_tags` (api.py lines 768-829):
same guard and stop conditions as `sbsLoop`, but each page's items are
counted before extending, and a raised page request is swallowed by the outer
handler, keeping the counts and items accumulated so far. -/
def aggLoop (env : NetEnv) (total : Nat) (counts : TagMap) (items : List Item) :
    TagMap × List Item :=
  if h : total > items.length ∧ items.length < 10000 then
    match env.page items.length with
    | none => (counts, items)
    | some p =>
      if hp0 : p.isEmpty then (counts, items)
      else if p.length < 1000 then (p.foldl countItem counts, items ++ p)
      else aggLoop env total (p.foldl countItem counts) (items ++ p)
  else (counts, items)
termination_by 10000 - items.length
decreasing_by
  simp only [List.length_append]
  have hp : p ≠ [] := fun hnil => hp0 (by simp [hnil])
  have hlen : 0 < p.length := List.length_pos.mpr hp
  omega

theorem aggLoop_eq (env : NetEnv) (total : Nat) (counts : TagMap) (items : List Item) :
    aggLoop env total counts items =
      if total > items.length ∧ items.length < 10000 then
        match env.page items.length with
        | none => (counts, items)
        | some p =>
          if p.isEmpty then (counts, items)
          else if p.length < 1000 then (p.foldl countItem counts, items ++ p)
          else aggLoop env total (p.foldl countItem counts) (items ++ p)
      else (counts, items) := by
  rw [aggLoop]
  simp only [dite_eq_ite]

theorem aggLoop_stop (env : NetEnv) (total : Nat) (counts : TagMap) (items : List Item)
    (h : ¬(total > items.length ∧ items.length < 10000)) :
    aggLoop env total counts items = (counts, items) := by
  rw [aggLoop_eq, if_neg h]

theorem aggLoop_err (env : NetEnv) (total : Nat) (counts : TagMap) (items : List Item)
    (hg : total > items.length ∧ items.length < 10000)
    (hp : env.page items.length = none) :
    aggLoop env total counts items = (counts, items) := by
  rw [aggLoop_eq, if_pos hg, hp]

theorem aggLoop_page (env : NetEnv) (total : Nat) (counts : TagMap) (items p : List Item)
    (hg : total > items.length ∧ items.length < 10000)
    (hp : env.page items.length = some p) :
    aggLoop env total counts items =
      if p.isEmpty then (counts, items)
      else if p.length < 1000 then (p.foldl countItem counts, items ++ p)
      else aggLoop env total (p.foldl countItem counts) (items ++ p) := by
  rw [aggLoop_eq, if_pos hg, hp]

/-- The `@id` URLs of first-page items from which no subjects could be
extracted (api.py lines 699-706). -/
def noSubjectUrls (items : List Item) : List String :=
  items.filterMap (fun it =>
    if extractSubjects it ≠ [] then none
    else match it.lookup "@id" with
      | some (.str u) => if u ≠ "" then some u else none
      | _ => none)

/-- The full-detail fallback fetches of `get_all_tags` (api.py lines
708-766): at most 100 of the collected URLs are fetched in full; a raised
fetch is swallowed (`continue`), a successful fetch goes through the same
field-priority extraction and counting. -/
def fullFetchCounts (env : NetEnv) (urls : List String) (counts : TagMap) : TagMap :=
  (urls.take 100).foldl (fun m u =>
    match env.fetch u with
    | none => m
    | some full => countItem m full) counts

/-- The search phase of `get_all_tags` (api.py lines 586-843): the returned
map is whatever `tag_counts` holds when the phase ends, whether it ran to
completion or a mid-phase exception was caught by the enclosing handler
(a raised initial request leaves the counts empty). -/
def searchPhase (env : NetEnv) : TagMap :=
  match env.firstPage with
  | none => []
  | some (items, totalOpt) =>
    let counts1 := items.foldl countItem []
    let urls := noSubjectUrls items
    let counts2 :=
      if ¬urls.isEmpty ∧ counts1.isEmpty then fullFetchCounts env urls counts1
      else counts1
    (aggLoop env (totalOpt.getD items.length) counts2 items).1

/-- `is_folderish` truthy, or `@type` in `("Folder", "Collection")`
(api.py line 911). -/
def isFolderish (it : Item) : Bool :=
  (match it.lookup "is_folderish" with
    | some v => pyTruthy v
    | none => false)
  || (match it.lookup "@type" with
    | some (.str s) => s == "Folder" || s == "Collection"
    | _ => false)

/-- The child items of a fetched container body: `data.get("items", [])`
(api.py line 868); non-object entries are dropped. -/
def jItems (data : Item) : List Item :=
  match data.lookup "items" with
  | some (.arr xs) => xs.filterMap (fun v => match v with | .obj fs => some fs | _ => none)
  | _ => []

/-- `str.replace(pat, "")` with explicit fuel (the fuel is always at least
the string length, so it never runs out): every occurrence of `pat`
removed. -/
def removeAllFuel : Nat → List Char → List Char → List Char
  | 0, _, s => s
  | _ + 1, _, [] => []
  | fuel + 1, pat, c :: rest =>
    if pat ≠ [] ∧ pat.isPrefixOf (c :: rest) then
      removeAllFuel fuel pat ((c :: rest).drop pat.length)
    else c :: removeAllFuel fuel pat rest

/-- `str.replace(pat, "")`: every occurrence of `pat` removed. -/
def removeAll (pat s : List Char) : List Char :=
  removeAllFuel s.length pat s

/-- `str.rstrip("/")`. -/
def rstripSlash (s : String) : String :=
  String.mk ((s.toList.reverse.dropWhile (fun c => c = '/')).reverse)

/-- `str.lstrip("/")`. -/
def lstripSlash (s : String) : String :=
  String.mk (s.toList.dropWhile (fun c => c = '/'))

/-- `item.get("@id", "").replace(base.rstrip("/"), "").lstrip("/")`
(api.py line 912). -/
def itemPathOf (base : String) (it : Item) : String :=
  let uid := match it.lookup "@id" with | some (.str u) => u | _ => ""
  lstripSlash (String.mk (removeAll (rstripSlash base).toList uid.toList))

/-- State of the recursive-browse fallback: the `tag_counts` map under
construction, the `visited_paths` set (insertion order kept) and the
per-call `item_cache`. -/
structure AggState where
  counts : TagMap
  visited : List String
  cache : List (String × Item)

mutual

/-- `collect_tags_recursive` (api.py lines 854-916): depth-bounded,
visited-set-guarded container walk; `fuel` is `max_depth + 1 - depth` (the
code checks `depth > max_depth` with `max_depth = 20`).  The path is marked
visited before the fetch; a raised fetch is swallowed and the branch
skipped. -/
def collect_tags_recursive (env : NetEnv) (base : String) (fuel : Nat)
    (path : String) (st : AggState) : AggState :=
  match fuel with
  | 0 => st
  | fuel + 1 =>
    if path ∈ st.visited then st
    else
      let st1 : AggState := { st with visited := st.visited ++ [path] }
      match st1.cache.lookup path with
      | some data => collectChildItems env base fuel (jItems data) st1
      | none =>
        match env.fetch path with
        | none => st1
        | some data =>
          let st2 : AggState := { st1 with cache := st1.cache ++ [(path, data)] }
          collectChildItems env base fuel (jItems data) st2
termination_by (fuel, 0)

/-- The item loop inside `collect_tags_recursive` (api.py lines 870-914):
count each child's subjects, and recurse into folderish children whose
derived path is non-empty and unvisited. -/
def collectChildItems (env : NetEnv) (base : String) (fuel : Nat)
    (items : List Item) (st : AggState) : AggState :=
  match items with
  | [] => st
  | it :: rest =>
    let st1 : AggState := { st with counts := countItem st.counts it }
    let st2 : AggState :=
      if isFolderish it then
        let p := itemPathOf base it
        if p ≠ "" ∧ p ∉ st1.visited then collect_tags_recursive env base fuel p st1
        else st1
      else st1
    collectChildItems env base fuel rest st2
termination_by (fuel, items.length + 1)

end

/-- The recursive-browse fallback of `get_all_tags` (api.py lines 845-922):
start from the given path (or the root) with `depth = 0`, `max_depth = 20`,
fresh cache and visited set, and the (empty) `tag_counts`. -/
def fallbackBrowse (env : NetEnv) (base path : String) : TagMap :=
  (collect_tags_recursive env base 21 path ⟨[], [], []⟩).counts

/-- `get_all_tags` (api.py lines 566-924): the search phase's counts are
returned when non-empty; otherwise (initial search raised, or no tags were
found) the recursive-browse fallback runs. -/
def get_all_tags (env : NetEnv) (base path : String) : TagMap :=
  let counts := searchPhase env
  if counts.isEmpty then fallbackBrowse env base path else counts

/-- C5: `get_all_tags` never propagates partial failures.  A raised initial
search request, or a search that yields zero tags, demotes to the
recursive-browse fallback rather than raising; when the search phase
accumulates any tags they are returned; and inside the fallback a raised
fetch for a path is swallowed, leaving everything but the visited-set
unchanged (so the aggregator always produces a map). -/
theorem C5_partial_failures (env : NetEnv) (base path p : String)
    (st : AggState) (f : Nat) :
    (env.firstPage = none → get_all_tags env base path = fallbackBrowse env base path)
  ∧ (searchPhase env = [] → get_all_tags env base path = fallbackBrowse env base path)
  ∧ (searchPhase env ≠ [] → get_all_tags env base path = searchPhase env)
  ∧ (p ∉ st.visited → st.cache.lookup p = none → env.fetch p = none →
      collect_tags_recursive env base (f + 1) p st
        = { st with visited := st.visited ++ [p] }) := by
  refine ⟨?_, ?_, ?_, ?_⟩
  · intro h
    have hsp : searchPhase env = [] := by
      unfold searchPhase
      rw [h]
    simp only [get_all_tags, hsp, List.isEmpty_nil, if_true]
  · intro hsp
    simp only [get_all_tags, hsp, List.isEmpty_nil, if_true]
  · intro hsp
    simp only [get_all_tags]
    rw [if_neg (by simpa [List.isEmpty_iff] using hsp)]
  · intro hvis hcache hfetch
    rw [collect_tags_recursive]
    rw [if_neg hvis]
    simp only [hcache, hfetch]

/-- Witness for C5 at a concrete input: an environment whose every request
raises still produces a (here empty) map via the fallback, and a failing
fetch inside the fallback only marks the path visited. -/
theorem C5_witness :
    get_all_tags ⟨none, fun _ => none, fun _ => none⟩ "" ""
        = fallbackBrowse ⟨none, fun _ => none, fun _ => none⟩ "" ""
  ∧ collect_tags_recursive ⟨none, fun _ => none, fun _ => none⟩ "" 1 "x" ⟨[], [], []⟩
        = { counts := [], visited := ["x"], cache := [] } := by
  have h := C5_partial_failures ⟨none, fun _ => none, fun _ => none⟩ "" "" "x"
    ⟨[], [], []⟩ 0
  refine ⟨h.1 rfl, ?_⟩
  have h4 := h.2.2.2 (by simp) rfl rfl
  simpa using h4

theorem sbsLoop_length_le (env : NetEnv)
    (hpages : ∀ off p, env.page off = some p → p.length ≤ 1000) :
    ∀ n acc total, 10000 - acc.length ≤ n → acc.length ≤ 10999 →
      ∀ l, sbsLoop env total acc = .ok l → l.length ≤ 10999 := by
  intro n
  induction n with
  | zero =>
    intro acc total hn hacc l hl
    rw [sbsLoop_stop env total acc (by omega)] at hl
    obtain rfl := Except.ok.inj hl
    exact hacc
  | succ n ih =>
    intro acc total hn hacc l hl
    by_cases hg : total > acc.length ∧ acc.length < 10000
    · cases hp : env.page acc.length with
      | none =>
        rw [sbsLoop_err env total acc hg hp] at hl
        exact Except.noConfusion hl
      | some p =>
        rw [sbsLoop_page env total acc p hg hp] at hl
        have hple := hpages _ _ hp
        by_cases hp0 : p.isEmpty
        · rw [if_pos hp0] at hl
          obtain rfl := Except.ok.inj hl
          exact hacc
        · rw [if_neg hp0] at hl
          by_cases hshort : p.length < 1000
          · rw [if_pos hshort] at hl
            obtain rfl := Except.ok.inj hl
            simp only [List.length_append]
            omega
          · rw [if_neg hshort] at hl
            refine ih (acc ++ p) total ?_ ?_ l hl
            · have hpn : p ≠ [] := fun hnil => hp0 (by simp [hnil])
              have hpos : 0 < p.length := List.length_pos.mpr hpn
              simp only [List.length_append]
              omega
            · simp only [List.length_append]
              omega
    · rw [sbsLoop_stop env total acc hg] at hl
      obtain rfl := Except.ok.inj hl
      exact hacc

theorem aggLoop_length_le (env : NetEnv)
    (hpages : ∀ off p, env.page off = some p → p.length ≤ 1000) :
    ∀ n counts acc total, 10000 - acc.length ≤ n → acc.length ≤ 10999 →
      (aggLoop env total counts acc).2.length ≤ 10999 := by
  intro n
  induction n with
  | zero =>
    intro counts acc total hn hacc
    rw [aggLoop_stop env total counts acc (by omega)]
    exact hacc
  | succ n ih =>
    intro counts acc total hn hacc
    by_cases hg : total > acc.length ∧ acc.length < 10000
    · cases hp : env.page acc.length with
      | none =>
        rw [aggLoop_err env total counts acc hg hp]
        exact hacc
      | some p =>
        rw [aggLoop_page env total counts acc p hg hp]
        have hple := hpages _ _ hp
        by_cases hp0 : p.isEmpty
        · rw [if_pos hp0]
          exact hacc
        · rw [if_neg hp0]
          by_cases hshort : p.length < 1000
          · rw [if_pos hshort]
            simp only [List.length_append]
            omega
          · rw [if_neg hshort]
            refine ih _ (acc ++ p) total ?_ ?_
            · have hpn : p ≠ [] := fun hnil => hp0 (by simp [hnil])
              have hpos : 0 < p.length := List.length_pos.mpr hpn
              simp only [List.length_append]
              omega
            · simp only [List.length_append]
              omega
    · rw [aggLoop_stop env total counts acc hg]
      exact hacc

/-- C6 (amended): pagination continues only while the reported `items_total`
exceeds the items fetched so far and fewer than 10,000 items have been
fetched, stops on an empty page, and stops after extending on a page shorter
than the requested size of 1000.  Because the cap is checked before each
fetch, the total fetched can exceed 10,000 by up to one page: with pages of
at most 1000 items the total stays at most 10,999 (it does not stay within
10,000 — see the counterexample). -/
theorem C6_pagination_amended (env : NetEnv) (total : Nat) (counts : TagMap)
    (acc : List Item)
    (hpages : ∀ off p, env.page off = some p → p.length ≤ 1000) :
    (acc.length ≤ 10999 → ∀ l, sbsLoop env total acc = .ok l → l.length ≤ 10999)
  ∧ (acc.length ≤ 10999 → (aggLoop env total counts acc).2.length ≤ 10999)
  ∧ (total ≤ acc.length ∨ 10000 ≤ acc.length →
      sbsLoop env total acc = .ok acc ∧ aggLoop env total counts acc = (counts, acc))
  ∧ (env.page acc.length = some [] →
      sbsLoop env total acc = .ok acc ∧ aggLoop env total counts acc = (counts, acc))
  ∧ (∀ p, total > acc.length → acc.length < 10000 → env.page acc.length = some p →
      p ≠ [] → p.length < 1000 →
      sbsLoop env total acc = .ok (acc ++ p)
        ∧ aggLoop env total counts acc = (p.foldl countItem counts, acc ++ p))
  ∧ (∀ itemsF totalF, env.firstPage = some (itemsF, totalF) → itemsF.length ≤ 1000 →
      ∀ l, search_by_subject env = .ok l → l.length ≤ 10999) := by
  refine ⟨?_, ?_, ?_, ?_, ?_, ?_⟩
  · intro hacc l hl
    exact sbsLoop_length_le env hpages 10000 acc total (by omega) hacc l hl
  · intro hacc
    exact aggLoop_length_le env hpages 10000 counts acc total (by omega) hacc
  · intro hstop
    constructor
    · exact sbsLoop_stop env total acc (by omega)
    · exact aggLoop_stop env total counts acc (by omega)
  · intro hempty
    constructor
    · by_cases hg : total > acc.length ∧ acc.length < 10000
      · rw [sbsLoop_page env total acc [] hg hempty]
        rfl
      · exact sbsLoop_stop env total acc hg
    · by_cases hg : total > acc.length ∧ acc.length < 10000
      · rw [aggLoop_page env total counts acc [] hg hempty]
        rfl
      · exact aggLoop_stop env total counts acc hg
  · intro p hgt hlt hp hpn hshort
    constructor
    · rw [sbsLoop_page env total acc p ⟨hgt, hlt⟩ hp,
        if_neg (by simpa [List.isEmpty_iff] using hpn), if_pos hshort]
    · rw [aggLoop_page env total counts acc p ⟨hgt, hlt⟩ hp,
        if_neg (by simpa [List.isEmpty_iff] using hpn), if_pos hshort]
  · intro itemsF totalF hfst hlen l hl
    unfold search_by_subject at hl
    rw [hfst] at hl
    exact sbsLoop_length_le env hpages 10000 itemsF _ (by omega) (by omega) l hl

/-- The environment of the C6 counterexample: the first page reports
`items_total = 20000` but carries only 500 items; every later page carries
exactly the requested 1000 items, so the server honours the requested page
size throughout. -/
def overshootEnv : NetEnv where
  firstPage := some (List.replicate 500 ([] : Item), some 20000)
  page := fun _ => some (List.replicate 1000 ([] : Item))
  fetch := fun _ => none

theorem overshootEnv_page (off : Nat) :
    overshootEnv.page off = some (List.replicate 1000 ([] : Item)) := rfl

theorem overshoot_step (n : Nat) (h1 : n < 10000) :
    sbsLoop overshootEnv 20000 (List.replicate n ([] : Item))
      = sbsLoop overshootEnv 20000 (List.replicate (n + 1000) ([] : Item)) := by
  rw [sbsLoop_page overshootEnv 20000 _ _
    (by simp only [List.length_replicate]; omega) (overshootEnv_page _)]
  rw [if_neg (by
    rw [List.isEmpty_iff]
    intro hnil
    have hlen := congrArg List.length hnil
    simp only [List.length_replicate, List.length_nil] at hlen
    omega)]
  rw [if_neg (by simp only [List.length_replicate]; omega)]
  rw [← List.replicate_add]

/-- Counterexample to C6 as stated: the pagination of `search_by_subject`
fetches 10,500 items — more than the 10,000-item cap — when the first page
carries 500 items and every later page the full 1000. -/
theorem C6_counterexample :
    (search_by_subject overshootEnv).map List.length = .ok 10500
  ∧ 10000 < 10500 := by
  refine ⟨?_, by omega⟩
  have h0 : search_by_subject overshootEnv
      = sbsLoop overshootEnv 20000 (List.replicate 500 ([] : Item)) := rfl
  rw [h0]
  rw [overshoot_step 500 (by omega)]
  norm_num
  rw [overshoot_step 1500 (by omega)]
  norm_num
  rw [overshoot_step 2500 (by omega)]
  norm_num
  rw [overshoot_step 3500 (by omega)]
  norm_num
  rw [overshoot_step 4500 (by omega)]
  norm_num
  rw [overshoot_step 5500 (by omega)]
  norm_num
  rw [overshoot_step 6500 (by omega)]
  norm_num
  rw [overshoot_step 7500 (by omega)]
  norm_num
  rw [overshoot_step 8500 (by omega)]
  norm_num
  rw [overshoot_step 9500 (by omega)]
  norm_num
  rw [sbsLoop_stop overshootEnv 20000 _ (by simp only [List.length_replicate]; omega)]
  simp only [Except.map, List.length_replicate]

/-- Witness for the amended C6 at a concrete input: with `items_total`
already covered by the fetched items, the loops stop at once. -/
theorem C6_witness :
    sbsLoop overshootEnv 0 [] = .ok []
  ∧ aggLoop overshootEnv 0 [] [] = ([], []) := by
  have h := C6_pagination_amended overshootEnv 0 [] []
    (fun off p hp => by
      have hpr : p = List.replicate 1000 ([] : Item) :=
        Option.some.inj (hp.symm.trans (overshootEnv_page off))
      rw [hpr, List.length_replicate])
  exact h.2.2.1 (Or.inl le_rfl)

/-! ## Bulk tag mutator (`cmd_merge_tags`, `cmd_rename_tag`, `cmd_remove_tag`,
cli.py lines 1761-2012)

`cmd_rename_tag` delegates to `cmd_merge_tags` with a single source tag
(cli.py line 1957), so the merge model covers it.  The interactive
confirmation prompt is assumed answered positively. -/

mutual

/-- Python `==` on decoded JSON values (used through `set()` membership). -/
def jvalBEq : JVal → JVal → Bool
  | .null, .null => true
  | .bool a, .bool b => a == b
  | .num a, .num b => a == b
  | .str a, .str b => a == b
  | .arr xs, .arr ys => jvalListBEq xs ys
  | .obj fs, .obj gs => jvalFieldsBEq fs gs
  | _, _ => false

/-- Elementwise equality of JSON lists. -/
def jvalListBEq : List JVal → List JVal → Bool
  | [], [] => true
  | x :: xs, y :: ys => jvalBEq x y && jvalListBEq xs ys
  | _, _ => false

/-- Fieldwise equality of JSON objects. -/
def jvalFieldsBEq : List (String × JVal) → List (String × JVal) → Bool
  | [], [] => true
  | (k, v) :: fs, (k2, v2) :: gs => k == k2 && jvalBEq v v2 && jvalFieldsBEq fs gs
  | _, _ => false

end

mutual

theorem jvalBEq_refl : ∀ v : JVal, jvalBEq v v = true
  | .null => rfl
  | .bool b => by simp [jvalBEq]
  | .num n => by simp [jvalBEq]
  | .str s => by simp [jvalBEq]
  | .arr xs => by simp [jvalBEq, jvalListBEq_refl xs]
  | .obj fs => by simp [jvalBEq, jvalFieldsBEq_refl fs]

theorem jvalListBEq_refl : ∀ l : List JVal, jvalListBEq l l = true
  | [] => rfl
  | x :: xs => by simp [jvalListBEq, jvalBEq_refl x, jvalListBEq_refl xs]

theorem jvalFieldsBEq_refl : ∀ l : List (String × JVal), jvalFieldsBEq l l = true
  | [] => rfl
  | (k, v) :: fs => by simp [jvalFieldsBEq, jvalBEq_refl v, jvalFieldsBEq_refl fs]

end

/-- `set(xs) == set(ys)` over decoded JSON values: mutual membership. -/
def jvalSetEq (xs ys : List JVal) : Bool :=
  xs.all (fun x => ys.any (fun y => jvalBEq x y))
    && ys.all (fun y => xs.any (fun x => jvalBEq x y))

theorem jvalSetEq_refl (xs : List JVal) : jvalSetEq xs xs = true := by
  unfold jvalSetEq
  have h : xs.all (fun x => xs.any (fun y => jvalBEq x y)) = true := by
    rw [List.all_eq_true]
    intro x hx
    rw [List.any_eq_true]
    exact ⟨x, hx, jvalBEq_refl x⟩
  have h2 : xs.all (fun y => xs.any (fun x => jvalBEq x y)) = true := by
    rw [List.all_eq_true]
    intro x hx
    rw [List.any_eq_true]
    exact ⟨x, hx, jvalBEq_refl x⟩
  rw [h, h2]
  rfl

/-- Python `tag in l` for a string against a list of decoded JSON values. -/
def jstrMem (s : String) (l : List JVal) : Bool :=
  l.any (fun v => match v with | .str t => t == s | _ => false)

/-- Environment of the bulk tag mutator: per-tag search
(`api.search_by_subject`, `none` = `APIError`), item refetch (`api.fetch`),
the PATCH (`api.update_item_subjects`, `none` = `APIError`), the post-PATCH
verification refetch, and the resolved base URL. -/
structure CmdEnv where
  searchTag : String → Option (List Item)
  fetch : String → Option Item
  patch : String → List JVal → Option Unit
  refetch : String → Option Item
  base : String

/-- The Python `or`-chain of the refetch
(`current_item.get("Subject") or .get("subjects") or .get("subject") or []`,
cli.py lines 1854-1859 and 1893-1898). -/
def orChain (item : Item) : JVal :=
  let v1 := (item.lookup "Subject").getD .null
  if pyTruthy v1 then v1
  else
    let v2 := (item.lookup "subjects").getD .null
    if pyTruthy v2 then v2
    else
      let v3 := (item.lookup "subject").getD .null
      if pyTruthy v3 then v3 else .arr []

/-- The tag-list coercion of the refetched value (cli.py lines 1860-1863 and
1899-1902): a bare string becomes a one-element list, a list stays, other
truthy values go through `list(...)` — (`none` models the raised `TypeError`
that makes the enclosing handler fall back). -/
def coerceMergeTags : JVal → Option (List JVal)
  | .str s => some (if s == "" then [] else [JVal.str s])
  | .arr xs => some xs
  | .obj fields => some (if fields.isEmpty then [] else fields.map (fun kv => JVal.str kv.1))
  | .null => some []
  | .bool b => if b then none else some []
  | .num n => if n == 0 then some [] else none

/-- `item.get("subjects", [])` from a search-result item, iterated as Python
would. -/
def searchResultSubjects (item : Item) : List JVal :=
  pyIterList ((item.lookup "subjects").getD (.arr []))

/-- The authoritative current tags of one matched item in `cmd_merge_tags`
(cli.py lines 1851-1866): refetch the item, take the `or`-chain and coerce;
any raised exception falls back to the search result's `subjects` field. -/
def mergeCurrentTags (env : CmdEnv) (itemPath : String) (item : Item) : List JVal :=
  match env.fetch itemPath with
  | none => searchResultSubjects item
  | some cur =>
    match coerceMergeTags (orChain cur) with
    | some l => l
    | none => searchResultSubjects item

/-- The new tag list of `cmd_merge_tags` (cli.py lines 1869-1871): drop all
source tags, append the target if absent. -/
def mergeNewTags (sources : List String) (target : String) (cur : List JVal) : List JVal :=
  let n := cur.filter (fun v => match v with
    | .str s => decide (s ∉ sources)
    | _ => true)
  if jstrMem target n then n else n ++ [JVal.str target]

/-- The updated/error accounting of one issued merge PATCH (cli.py lines
1875-1932): a raised PATCH counts an error; then the verification refetch —
unverifiable items are assumed updated, a still-present source tag or a
missing target tag counts an error, otherwise the item counts as updated. -/
def mergeWriteCounters (env : CmdEnv) (sources : List String) (target : String)
    (path : String) (newTags : List JVal) : Nat × Nat :=
  match env.patch path newTags with
  | none => (0, 1)
  | some _ =>
    match env.refetch path with
    | none => (1, 0)
    | some vitem =>
      match coerceMergeTags (orChain vitem) with
      | none => (1, 0)
      | some vtags =>
        if vtags.any (fun v => match v with
            | .str s => decide (s ∈ sources)
            | _ => false) then (0, 1)
        else if jstrMem target vtags then (1, 0)
        else (0, 1)

/-- One matched item of the non-dry-run merge (cli.py lines 1843-1939):
empty derived path counts an error with no write; an unchanged tag set is
skipped with no write and no update count; otherwise the PATCH is issued with
its accounting. -/
def processMergeItem (env : CmdEnv) (sources : List String) (target : String)
    (item : Item) : Option (String × List JVal) × Nat × Nat :=
  if itemPathOf env.base item = "" then (none, 0, 1)
  else
    let cur := mergeCurrentTags env (itemPathOf env.base item) item
    let newTags := mergeNewTags sources target cur
    if jvalSetEq cur newTags then (none, 0, 0)
    else
      (some (itemPathOf env.base item, newTags),
       mergeWriteCounters env sources target (itemPathOf env.base item) newTags)

/-- `all_items[item_id] = item` on a Python dict: first occurrence fixes the
position, later occurrences overwrite the value. -/
def dictInsert (m : List (String × Item)) (k : String) (v : Item) :
    List (String × Item) :=
  if m.any (fun kv => kv.1 == k) then
    m.map (fun kv => if kv.1 == k then (kv.1, v) else kv)
  else m ++ [(k, v)]

/-- Step 1 of `cmd_merge_tags` (cli.py lines 1786-1800): search per source
tag (a raised search is warned about and skipped), union the results keyed by
`@id`. -/
def collectMergeItems (env : CmdEnv) (sources : List String) : List Item :=
  (sources.foldl (fun m s =>
    match env.searchTag s with
    | none => m
    | some items => items.foldl (fun m it =>
        match it.lookup "@id" with
        | some (.str u) => if u == "" then m else dictInsert m u it
        | _ => m) m) []).map Prod.snd

/-- `item.get("title", item.get("id", "—"))`. -/
def titleOf (item : Item) : JVal :=
  (item.lookup "title").getD ((item.lookup "id").getD (.str "—"))

/-- One dry-run preview line of `cmd_merge_tags` (cli.py lines 1818-1825):
title, the search result's raw `subjects`, and the computed new list. -/
def dryPreviewMerge (sources : List String) (target : String) (item : Item) :
    JVal × JVal × List JVal :=
  (titleOf item,
   (item.lookup "subjects").getD (.arr []),
   mergeNewTags sources target (searchResultSubjects item))

/-- Observable outcome of a bulk-mutation command: the PATCH requests issued,
the dry-run preview lines, and the reported updated/error counters. -/
structure MutOutcome where
  writes : List (String × List JVal)
  previews : List (JVal × JVal × List JVal)
  updated : Nat
  errors : Nat

/-- `cmd_merge_tags` (cli.py lines 1761-1943): collect the matched items; an
empty match returns at once; dry-run previews the first 10 items and stops;
otherwise every item is processed and the counters accumulated. -/
def cmd_merge_tags (env : CmdEnv) (sources : List String) (target : String)
    (dryRun : Bool) : MutOutcome :=
  let itemsList := collectMergeItems env sources
  if itemsList.isEmpty then ⟨[], [], 0, 0⟩
  else if dryRun then
    ⟨[], (itemsList.take 10).map (dryPreviewMerge sources target), 0, 0⟩
  else
    itemsList.foldl (fun acc it =>
      let r := processMergeItem env sources target it
      ⟨acc.writes ++ (match r.1 with | some w => [w] | none => []),
       acc.previews, acc.updated + r.2.1, acc.errors + r.2.2⟩)
      ⟨[], [], 0, 0⟩

/-- The new tag list of `cmd_remove_tag` (cli.py lines 1999-2000): computed
directly from the search result's `subjects` field — no refetch. -/
def removeNewTags (item : Item) (tag : String) : List JVal :=
  (searchResultSubjects item).filter (fun v => match v with
    | .str s => decide (s ≠ tag)
    | _ => true)

/-- One matched item of the non-dry-run remove (cli.py lines 1996-2006): the
PATCH is issued unconditionally with the search-result-derived list. -/
def processRemoveItem (env : CmdEnv) (tag : String) (item : Item) :
    Option (String × List JVal) × Nat × Nat :=
  match env.patch (itemPathOf env.base item) (removeNewTags item tag) with
  | none => (some (itemPathOf env.base item, removeNewTags item tag), 0, 1)
  | some _ => (some (itemPathOf env.base item, removeNewTags item tag), 1, 0)

/-- `cmd_remove_tag` (cli.py lines 1960-2012): a raised search propagates as
a `CliError` (`none`); an empty match returns at once; dry-run previews the
first 10 items and stops; otherwise every item is processed. -/
def cmd_remove_tag (env : CmdEnv) (tag : String) (dryRun : Bool) :
    Option MutOutcome :=
  match env.searchTag tag with
  | none => none
  | some items =>
    if items.isEmpty then some ⟨[], [], 0, 0⟩
    else if dryRun then
      some ⟨[], (items.take 10).map (fun it =>
        (titleOf it, (it.lookup "subjects").getD (.arr []), removeNewTags it tag)), 0, 0⟩
    else
      some (items.foldl (fun acc it =>
        let r := processRemoveItem env tag it
        ⟨acc.writes ++ (match r.1 with | some w => [w] | none => []),
         acc.previews, acc.updated + r.2.1, acc.errors + r.2.2⟩)
        ⟨[], [], 0, 0⟩)

/-- Modelled from the spec: the spec's Step 2 for the remove operation
("same" as merge/rename, i.e. refetch the item's current subject list as the
authoritative source), then drop the tag with no replacement. -/
def removeViaRefetchSpec (env : CmdEnv) (itemPath : String) (item : Item)
    (tag : String) : List JVal :=
  (mergeCurrentTags env itemPath item).filter (fun v => match v with
    | .str s => decide (s ≠ tag)
    | _ => true)

/-- The environment of the C7 counterexample: the search result for tag `a`
carries a stale one-element `subjects` list, while the item's authoritative
(refetched) subject list is `["a", "b"]`. -/
def staleEnv : CmdEnv where
  searchTag := fun _ => some [[("@id", JVal.str "http://s/x"),
                               ("subjects", JVal.arr [JVal.str "a"])]]
  fetch := fun _ => some [("subjects", JVal.arr [JVal.str "a", JVal.str "b"])]
  patch := fun _ _ => some ()
  refetch := fun _ => none
  base := "http://s"

/-- Counterexample to C7 as stated: `cmd_remove_tag` computes the new list
from the search result's possibly stale `subjects` field, not from a refetch.
Here the stale field is `["a"]` while the authoritative list is `["a", "b"]`:
the command PATCHes `[]` (dropping `"b"`), whereas the spec's
refetch-as-in-merge behaviour would PATCH `["b"]`. -/
theorem C7_counterexample :
    removeNewTags [("@id", JVal.str "http://s/x"),
        ("subjects", JVal.arr [JVal.str "a"])] "a" = []
  ∧ removeViaRefetchSpec staleEnv "x"
      [("@id", JVal.str "http://s/x"), ("subjects", JVal.arr [JVal.str "a"])] "a"
      = [JVal.str "b"]
  ∧ cmd_remove_tag staleEnv "a" false
      = some ⟨[("x", [])], [], 1, 0⟩ := by
  refine ⟨rfl, rfl, rfl⟩

/-- C7 (amended): only `cmd_merge_tags`/`cmd_rename_tag` refetch the item's
current subject list as the authoritative source before computing the new
list (falling back to the search result's `subjects` only when the refetch
raises); `cmd_remove_tag` computes its new list from the search result's
`subjects` field directly, with no refetch — its issued PATCH does not depend
on the fetch environment at all — and drops the tag with no replacement. -/
theorem C7_remove_uses_search_result (env env2 : CmdEnv) (itemPath : String)
    (item : Item) (tag : String) :
    (∀ cur l, env.fetch itemPath = some cur → coerceMergeTags (orChain cur) = some l →
        mergeCurrentTags env itemPath item = l)
  ∧ (env.fetch itemPath = none →
        mergeCurrentTags env itemPath item = searchResultSubjects item)
  ∧ removeNewTags item tag
      = (searchResultSubjects item).filter (fun v => match v with
          | .str s => decide (s ≠ tag)
          | _ => true)
  ∧ (env.base = env2.base →
        (processRemoveItem env tag item).1 = (processRemoveItem env2 tag item).1) := by
  refine ⟨?_, ?_, rfl, ?_⟩
  · intro cur l hf hc
    unfold mergeCurrentTags
    simp only [hf, hc]
  · intro hf
    unfold mergeCurrentTags
    simp only [hf]
  · intro hbase
    unfold processRemoveItem
    rw [hbase]
    cases env.patch (itemPathOf env2.base item) (removeNewTags item tag) <;>
      cases env2.patch (itemPathOf env2.base item) (removeNewTags item tag) <;> rfl

/-- Witness for the amended C7 at a concrete input: the merge refetch picks
up the authoritative list, and the remove PATCH is identical under an
environment whose refetch raises. -/
theorem C7_witness :
    mergeCurrentTags staleEnv "x"
        [("@id", JVal.str "http://s/x"), ("subjects", JVal.arr [JVal.str "a"])]
      = [JVal.str "a", JVal.str "b"]
  ∧ (processRemoveItem staleEnv "a"
        [("@id", JVal.str "http://s/x"), ("subjects", JVal.arr [JVal.str "a"])]).1
      = (processRemoveItem
          ⟨staleEnv.searchTag, fun _ => none, staleEnv.patch, staleEnv.refetch,
            staleEnv.base⟩ "a"
          [("@id", JVal.str "http://s/x"), ("subjects", JVal.arr [JVal.str "a"])]).1 := by
  have h := C7_remove_uses_search_result staleEnv
    ⟨staleEnv.searchTag, fun _ => none, staleEnv.patch, staleEnv.refetch, staleEnv.base⟩
    "x" [("@id", JVal.str "http://s/x"), ("subjects", JVal.arr [JVal.str "a"])] "a"
  exact ⟨h.1 [("subjects", JVal.arr [JVal.str "a", JVal.str "b"])]
    [JVal.str "a", JVal.str "b"] rfl rfl, h.2.2.2 rfl⟩

/-- C9: with the dry-run flag set, the bulk tag mutator issues no PATCH or
POST to any item and performs no update: it only searches and computes the
before/after tag lists, previewing them for at most the first 10 affected
items (exactly the first 10 in the merge case). -/
theorem C9_dry_run_no_writes (env : CmdEnv) (sources : List String)
    (target tag : String) :
    (cmd_merge_tags env sources target true).writes = []
  ∧ (cmd_merge_tags env sources target true).updated = 0
  ∧ (cmd_merge_tags env sources target true).previews
      = ((collectMergeItems env sources).take 10).map (dryPreviewMerge sources target)
  ∧ (cmd_merge_tags env sources target true).previews.length ≤ 10
  ∧ (∀ out, cmd_remove_tag env tag true = some out →
      out.writes = [] ∧ out.updated = 0 ∧ out.previews.length ≤ 10) := by
  have hmerge : cmd_merge_tags env sources target true
      = ⟨[], ((collectMergeItems env sources).take 10).map
          (dryPreviewMerge sources target), 0, 0⟩ := by
    unfold cmd_merge_tags
    by_cases hempty : (collectMergeItems env sources).isEmpty
    · have h0 : collectMergeItems env sources = [] := List.isEmpty_iff.mp hempty
      rw [if_pos hempty, h0]
      rfl
    · rw [if_neg hempty, if_pos rfl]
  refine ⟨by rw [hmerge], by rw [hmerge], by rw [hmerge], ?_, ?_⟩
  · rw [hmerge]
    simp only [List.length_map, List.length_take]
    omega
  · intro out hout
    unfold cmd_remove_tag at hout
    cases hsearch : env.searchTag tag with
    | none =>
      rw [hsearch] at hout
      exact Option.noConfusion hout
    | some items =>
      simp only [hsearch] at hout
      by_cases hempty : items.isEmpty
      · rw [if_pos hempty] at hout
        obtain rfl := (Option.some.inj hout).symm
        exact ⟨rfl, rfl, by simp⟩
      · rw [if_neg hempty] at hout
        simp only [if_true] at hout
        obtain rfl := (Option.some.inj hout).symm
        refine ⟨rfl, rfl, ?_⟩
        simp only [List.length_map, List.length_take]
        omega

/-- Witness for C9 at a concrete input: a dry-run merge issues no writes, and
a dry-run remove over an empty match yields the empty outcome. -/
theorem C9_witness :
    (cmd_merge_tags ⟨fun _ => some [], fun _ => none, fun _ _ => none,
        fun _ => none, ""⟩ ["a"] "b" true).writes = []
  ∧ (⟨[], [], 0, 0⟩ : MutOutcome).writes = []
      ∧ (⟨[], [], 0, 0⟩ : MutOutcome).updated = 0
      ∧ (⟨[], [], 0, 0⟩ : MutOutcome).previews.length ≤ 10 := by
  have h := C9_dry_run_no_writes
    ⟨fun _ => some [], fun _ => none, fun _ _ => none, fun _ => none, ""⟩ ["a"] "b" "t"
  exact ⟨h.1, h.2.2.2.2 ⟨[], [], 0, 0⟩ rfl⟩

theorem mergeNewTags_eq_self (sources : List String) (target : String)
    (cur : List JVal) (hs : ∀ s ∈ sources, jstrMem s cur = false)
    (ht : jstrMem target cur = true) :
    mergeNewTags sources target cur = cur := by
  unfold mergeNewTags
  have hfilter : cur.filter (fun v => match v with
      | JVal.str s => decide (s ∉ sources)
      | _ => true) = cur := by
    rw [List.filter_eq_self]
    intro v hv
    cases v with
    | str s =>
      rw [decide_eq_true_eq]
      intro hmem
      have hmf := hs s hmem
      unfold jstrMem at hmf
      rw [List.any_eq_false] at hmf
      exact absurd (by simp : (match JVal.str s with
        | JVal.str t => t == s
        | _ => false) = true) (hmf (JVal.str s) hv)
    | null => rfl
    | bool b => rfl
    | num n => rfl
    | arr xs => rfl
    | obj fs => rfl
  rw [hfilter, if_pos ht]

/-- C10: during a non-dry-run merge/rename, an item is PATCHed only when the
computed new tag set differs as a set from the refetched current tag set: a
set-equal item is skipped with no write, no update count and no error count;
every issued write carries the item's path and the computed new list; and an
item whose current tags already lack every source tag and contain the target
is such a skipped item. -/
theorem C10_write_only_on_change (env : CmdEnv) (sources : List String)
    (target : String) (item : Item) (hpath : itemPathOf env.base item ≠ "") :
    (jvalSetEq (mergeCurrentTags env (itemPathOf env.base item) item)
        (mergeNewTags sources target
          (mergeCurrentTags env (itemPathOf env.base item) item)) = true →
      processMergeItem env sources target item = (none, 0, 0))
  ∧ (∀ w, (processMergeItem env sources target item).1 = some w →
      jvalSetEq (mergeCurrentTags env (itemPathOf env.base item) item)
          (mergeNewTags sources target
            (mergeCurrentTags env (itemPathOf env.base item) item)) = false
        ∧ w = (itemPathOf env.base item,
            mergeNewTags sources target
              (mergeCurrentTags env (itemPathOf env.base item) item)))
  ∧ ((∀ s ∈ sources,
        jstrMem s (mergeCurrentTags env (itemPathOf env.base item) item) = false) →
      jstrMem target (mergeCurrentTags env (itemPathOf env.base item) item) = true →
      mergeNewTags sources target (mergeCurrentTags env (itemPathOf env.base item) item)
          = mergeCurrentTags env (itemPathOf env.base item) item
        ∧ processMergeItem env sources target item = (none, 0, 0)) := by
  refine ⟨?_, ?_, ?_⟩
  · intro hset
    simp only [processMergeItem]
    rw [if_neg hpath, if_pos hset]
  · intro w hw
    simp only [processMergeItem] at hw
    rw [if_neg hpath] at hw
    by_cases hset : jvalSetEq (mergeCurrentTags env (itemPathOf env.base item) item)
        (mergeNewTags sources target
          (mergeCurrentTags env (itemPathOf env.base item) item)) = true
    · rw [if_pos hset] at hw
      exact Option.noConfusion hw
    · rw [if_neg hset] at hw
      refine ⟨?_, (Option.some.inj hw).symm⟩
      cases hb : jvalSetEq (mergeCurrentTags env (itemPathOf env.base item) item)
          (mergeNewTags sources target
            (mergeCurrentTags env (itemPathOf env.base item) item))
      · rfl
      · exact absurd hb hset
  · intro hs ht
    have heq := mergeNewTags_eq_self sources target
      (mergeCurrentTags env (itemPathOf env.base item) item) hs ht
    refine ⟨heq, ?_⟩
    simp only [processMergeItem]
    rw [if_neg hpath, if_pos (by rw [heq]; exact jvalSetEq_refl _)]

/-- Witness for C10 at a concrete input: an item whose refetched subjects are
exactly `["pool"]` is skipped by `merge-tags swim pool` with no write. -/
theorem C10_witness :
    mergeNewTags ["swim"] "pool"
        (mergeCurrentTags
          ⟨fun _ => none, fun _ => some [("Subject", JVal.arr [JVal.str "pool"])],
            fun _ _ => none, fun _ => none, ""⟩
          (itemPathOf "" [("@id", JVal.str "/x")]) [("@id", JVal.str "/x")])
      = mergeCurrentTags
          ⟨fun _ => none, fun _ => some [("Subject", JVal.arr [JVal.str "pool"])],
            fun _ _ => none, fun _ => none, ""⟩
          (itemPathOf "" [("@id", JVal.str "/x")]) [("@id", JVal.str "/x")]
  ∧ processMergeItem
      ⟨fun _ => none, fun _ => some [("Subject", JVal.arr [JVal.str "pool"])],
        fun _ _ => none, fun _ => none, ""⟩
      ["swim"] "pool" [("@id", JVal.str "/x")] = (none, 0, 0) := by
  have h := C10_write_only_on_change
    ⟨fun _ => none, fun _ => some [("Subject", JVal.arr [JVal.str "pool"])],
      fun _ _ => none, fun _ => none, ""⟩
    ["swim"] "pool" [("@id", JVal.str "/x")] (by decide)
  exact h.2.2 (by decide) (by decide)

/-! ## C8: double runs of the bulk mutator over a consistent corpus

The remote server is modelled as a closed corpus, following the external
interface of the spec: the search endpoint returns exactly the items whose
subject list contains the queried tag, a PATCH rewrites the item's subject
list, and a refetch reads it back.  Step 1 and Step 2 of the commands are
composed against this corpus: per-source-tag search, union of matched paths
in first-seen order, per-item transform on the refetched (current) list,
set-comparison skip, and the write. -/

abbrev Corpus := List (String × List String)

/-- The search endpoint over the closed corpus. -/
def corpusSearch (c : Corpus) (tag : String) : Corpus :=
  c.filter (fun it => decide (tag ∈ it.2))

/-- The merge tag-list transform of cli.py lines 1869-1871 at the
string-list level: drop all source tags, append the target if absent. -/
def mergeTransform (sources : List String) (target : String)
    (cur : List String) : List String :=
  let n := cur.filter (fun t => decide (t ∉ sources))
  if target ∈ n then n else n ++ [target]

/-- `set(cur) == set(new)` at the string-list level. -/
def strSetEq (xs ys : List String) : Bool :=
  xs.all (fun x => decide (x ∈ ys)) && ys.all (fun y => decide (y ∈ xs))

/-- A successful PATCH on the closed corpus. -/
def corpusUpdate (c : Corpus) (p : String) (new : List String) : Corpus :=
  c.map (fun it => if it.1 = p then (p, new) else it)

/-- The refetch on the closed corpus. -/
def corpusGet (c : Corpus) (p : String) : Option (List String) :=
  (c.find? (fun it => it.1 == p)).map Prod.snd

/-- Deduplication keeping first occurrences (the `all_items` dict keyed by
`@id`). -/
def dedupAux : List String → List String → List String
  | [], _ => []
  | x :: xs, seen => if x ∈ seen then dedupAux xs seen else x :: dedupAux xs (x :: seen)

def dedupKeepFirst (l : List String) : List String := dedupAux l []

/-- One matched item of the merge over the closed corpus: refetch, transform,
skip when the tag set is unchanged, otherwise write and count. -/
def mergeStepCorpus (sources : List String) (target : String)
    (cw : Corpus × Nat) (p : String) : Corpus × Nat :=
  match corpusGet cw.1 p with
  | none => cw
  | some cur =>
    if strSetEq cur (mergeTransform sources target cur) then cw
    else (corpusUpdate cw.1 p (mergeTransform sources target cur), cw.2 + 1)

/-- Step 1 of the merge over the closed corpus: per-source search, union of
the matched paths in first-seen order. -/
def mergeMatchedPaths (c : Corpus) (sources : List String) : List String :=
  dedupKeepFirst (sources.foldl
    (fun acc s => acc ++ (corpusSearch c s).map Prod.fst) [])

/-- One full run of `merge-tags` over the closed corpus, returning the final
corpus and the number of writes performed. -/
def mergeRunCorpus (c : Corpus) (sources : List String) (target : String) :
    Corpus × Nat :=
  (mergeMatchedPaths c sources).foldl (mergeStepCorpus sources target) (c, 0)

/-- One full run of `remove-tag` over the closed corpus: the new list is
computed from the search result's subjects (no refetch, matching
`cmd_remove_tag`), and the PATCH is unconditional. -/
def removeRunCorpus (c : Corpus) (tag : String) : Corpus × Nat :=
  (corpusSearch c tag).foldl (fun cw it =>
    (corpusUpdate cw.1 it.1 (it.2.filter (fun t => decide (t ≠ tag))), cw.2 + 1))
    (c, 0)

theorem fst_corpusUpdate (c : Corpus) (p : String) (new : List String) :
    (corpusUpdate c p new).map Prod.fst = c.map Prod.fst := by
  unfold corpusUpdate
  rw [List.map_map]
  apply List.map_congr_left
  intro it _
  simp only [Function.comp_apply]
  by_cases h : it.1 = p
  · rw [if_pos h, h]
  · rw [if_neg h]

theorem fst_mergeStepCorpus (sources : List String) (target : String)
    (cw : Corpus × Nat) (p : String) :
    (mergeStepCorpus sources target cw p).1.map Prod.fst = cw.1.map Prod.fst := by
  cases hg : corpusGet cw.1 p with
  | none => simp only [mergeStepCorpus, hg]
  | some cur =>
    simp only [mergeStepCorpus, hg]
    by_cases h : strSetEq cur (mergeTransform sources target cur) = true
    · rw [if_pos h]
    · rw [if_neg h]
      exact fst_corpusUpdate cw.1 p (mergeTransform sources target cur)

theorem mem_corpusUpdate {c : Corpus} {p : String} {new : List String}
    {e : String × List String} (he : e ∈ corpusUpdate c p new) :
    e = (p, new) ∨ (e ∈ c ∧ e.1 ≠ p) := by
  unfold corpusUpdate at he
  rw [List.mem_map] at he
  obtain ⟨a, ha, hae⟩ := he
  by_cases h : a.1 = p
  · rw [if_pos h] at hae
    exact Or.inl hae.symm
  · rw [if_neg h] at hae
    exact Or.inr ⟨hae ▸ ha, hae ▸ h⟩

theorem corpusGet_of_mem {c : Corpus} (hnd : (c.map Prod.fst).Nodup)
    {e : String × List String} (he : e ∈ c) : corpusGet c e.1 = some e.2 := by
  induction c with
  | nil => simp at he
  | cons x xs ih =>
    simp only [List.map_cons, List.nodup_cons] at hnd
    obtain ⟨hx_notin, hnd_xs⟩ := hnd
    rcases List.mem_cons.mp he with rfl | hmem
    · unfold corpusGet
      rw [List.find?_cons]
      simp
    · have hne : x.1 ≠ e.1 := by
        intro h
        exact hx_notin (h ▸ List.mem_map_of_mem Prod.fst hmem)
      unfold corpusGet
      rw [List.find?_cons]
      have hbeq : (x.1 == e.1) = false := by simpa using hne
      rw [hbeq]
      exact ih hnd_xs hmem

theorem not_mem_mergeTransform {sources : List String} {target : String}
    (htgt : target ∉ sources) {s : String} (hs : s ∈ sources)
    (cur : List String) : s ∉ mergeTransform sources target cur := by
  unfold mergeTransform
  intro hmem
  by_cases hcase : target ∈ cur.filter (fun t => decide (t ∉ sources))
  · rw [if_pos hcase] at hmem
    rw [List.mem_filter, decide_eq_true_eq] at hmem
    exact hmem.2 hs
  · rw [if_neg hcase] at hmem
    rcases List.mem_append.mp hmem with h | h
    · rw [List.mem_filter, decide_eq_true_eq] at h
      exact h.2 hs
    · rw [List.mem_singleton] at h
      exact htgt (h ▸ hs)

theorem strSetEq_false_of_source_mem {sources : List String} {target : String}
    (htgt : target ∉ sources) {s : String} (hs : s ∈ sources)
    {cur : List String} (hcur : s ∈ cur) :
    strSetEq cur (mergeTransform sources target cur) = false := by
  cases hb : strSetEq cur (mergeTransform sources target cur)
  · rfl
  · exfalso
    unfold strSetEq at hb
    rw [Bool.and_eq_true] at hb
    have h1 := (List.all_eq_true.mp hb.1) s hcur
    rw [decide_eq_true_eq] at h1
    exact not_mem_mergeTransform htgt hs cur h1

theorem mergeFold_no_sources {sources : List String} {target : String}
    (htgt : target ∉ sources) :
    ∀ (ps : List String) (cw : Corpus × Nat),
      (cw.1.map Prod.fst).Nodup →
      (∀ e ∈ cw.1, (∀ s ∈ sources, s ∉ e.2) ∨ e.1 ∈ ps) →
      ∀ e ∈ (ps.foldl (mergeStepCorpus sources target) cw).1,
        ∀ s ∈ sources, s ∉ e.2 := by
  intro ps
  induction ps with
  | nil =>
    intro cw hnd hinv e he s hs
    simp only [List.foldl_nil] at he
    rcases hinv e he with h | h
    · exact h s hs
    · simp at h
  | cons p ps ih =>
    intro cw hnd hinv e he s hs
    simp only [List.foldl_cons] at he
    refine ih (mergeStepCorpus sources target cw p) ?_ ?_ e he s hs
    · rw [fst_mergeStepCorpus]
      exact hnd
    · intro e' he'
      cases hg : corpusGet cw.1 p with
      | none =>
        simp only [mergeStepCorpus, hg] at he'
        rcases hinv e' he' with h | h
        · exact Or.inl h
        · rcases List.mem_cons.mp h with h1 | h1
          · exfalso
            have := corpusGet_of_mem hnd he'
            rw [h1, hg] at this
            exact Option.noConfusion this
          · exact Or.inr h1
      | some cur =>
        simp only [mergeStepCorpus, hg] at he'
        by_cases hskip : strSetEq cur (mergeTransform sources target cur) = true
        · rw [if_pos hskip] at he'
          rcases hinv e' he' with h | h
          · exact Or.inl h
          · rcases List.mem_cons.mp h with h1 | h1
            · left
              intro s2 hs2 hmem
              have hget := corpusGet_of_mem hnd he'
              rw [h1, hg] at hget
              have hcur : cur = e'.2 := Option.some.inj hget
              rw [strSetEq_false_of_source_mem htgt hs2 (hcur ▸ hmem)] at hskip
              exact Bool.noConfusion hskip
            · exact Or.inr h1
        · rw [if_neg hskip] at he'
          rcases mem_corpusUpdate he' with h1 | ⟨h2, h3⟩
          · left
            intro s2 hs2
            rw [h1]
            exact not_mem_mergeTransform htgt hs2 cur
          · rcases hinv e' h2 with h | h
            · exact Or.inl h
            · rcases List.mem_cons.mp h with hcase | hcase
              · exact absurd hcase h3
              · exact Or.inr hcase

theorem mem_foldl_searchPaths (c : Corpus) :
    ∀ (l : List String) (acc : List String) (x : String),
      x ∈ l.foldl (fun acc s => acc ++ (corpusSearch c s).map Prod.fst) acc ↔
        x ∈ acc ∨ ∃ s ∈ l, x ∈ (corpusSearch c s).map Prod.fst := by
  intro l
  induction l with
  | nil => simp
  | cons s l ih =>
    intro acc x
    simp only [List.foldl_cons]
    rw [ih]
    simp only [List.mem_append, List.mem_cons]
    constructor
    · rintro ((h | h) | ⟨s2, hs2, h⟩)
      · exact Or.inl h
      · exact Or.inr ⟨s, Or.inl rfl, h⟩
      · exact Or.inr ⟨s2, Or.inr hs2, h⟩
    · rintro (h | ⟨s2, (rfl | hs2), h⟩)
      · exact Or.inl (Or.inl h)
      · exact Or.inl (Or.inr h)
      · exact Or.inr ⟨s2, hs2, h⟩

theorem mem_dedupAux : ∀ (l seen : List String) (x : String),
    x ∈ dedupAux l seen ↔ x ∈ l ∧ x ∉ seen := by
  intro l
  induction l with
  | nil => simp [dedupAux]
  | cons y ys ih =>
    intro seen x
    unfold dedupAux
    by_cases hy : y ∈ seen
    · rw [if_pos hy, ih]
      simp only [List.mem_cons]
      constructor
      · rintro ⟨h1, h2⟩
        exact ⟨Or.inr h1, h2⟩
      · rintro ⟨rfl | h1, h2⟩
        · exact absurd hy h2
        · exact ⟨h1, h2⟩
    · rw [if_neg hy]
      simp only [List.mem_cons, ih, List.mem_cons]
      constructor
      · rintro (rfl | ⟨h1, h2⟩)
        · exact ⟨Or.inl rfl, hy⟩
        · exact ⟨Or.inr h1, fun hc => h2 (Or.inr hc)⟩
      · rintro ⟨rfl | h1, h2⟩
        · exact Or.inl rfl
        · by_cases hxy : x = y
          · exact Or.inl hxy
          · exact Or.inr ⟨h1, fun hc => (by
              rcases hc with hc1 | hc2
              · exact hxy hc1
              · exact h2 hc2)⟩

theorem mem_mergeMatchedPaths {c : Corpus} {sources : List String}
    {e : String × List String} (he : e ∈ c) {s : String} (hs : s ∈ sources)
    (hse : s ∈ e.2) : e.1 ∈ mergeMatchedPaths c sources := by
  unfold mergeMatchedPaths dedupKeepFirst
  rw [mem_dedupAux, mem_foldl_searchPaths]
  refine ⟨Or.inr ⟨s, hs, ?_⟩, by simp⟩
  rw [List.mem_map]
  refine ⟨e, ?_, rfl⟩
  unfold corpusSearch
  rw [List.mem_filter, decide_eq_true_eq]
  exact ⟨he, hse⟩

theorem foldl_search_nil {c : Corpus} {sources : List String}
    (h : ∀ s ∈ sources, corpusSearch c s = []) :
    ∀ acc, sources.foldl (fun acc s => acc ++ (corpusSearch c s).map Prod.fst) acc
      = acc := by
  induction sources with
  | nil => intro acc; rfl
  | cons s l ih =>
    intro acc
    simp only [List.foldl_cons]
    rw [h s (List.mem_cons_self s l), List.map_nil, List.append_nil]
    exact ih (fun s2 hs2 => h s2 (List.mem_cons_of_mem s hs2)) acc

/-- C8 (amended): over a consistent corpus and with the target tag not among
the source tags, after one run of merge/rename no item carries any source
tag, so a second run's search finds zero items and the second run performs
zero writes, leaving the corpus unchanged; for remove the same holds with no
proviso.  (When the target IS one of the source tags the first run already
performs no writes but items keep the tag — see the counterexample.) -/
theorem C8_idempotent_amended (c : Corpus) (sources : List String)
    (target tag : String) (hnd : (c.map Prod.fst).Nodup)
    (htgt : target ∉ sources) :
    (∀ s ∈ sources, corpusSearch (mergeRunCorpus c sources target).1 s = [])
  ∧ mergeRunCorpus (mergeRunCorpus c sources target).1 sources target
      = ((mergeRunCorpus c sources target).1, 0)
  ∧ corpusSearch (removeRunCorpus c tag).1 tag = []
  ∧ removeRunCorpus (removeRunCorpus c tag).1 tag
      = ((removeRunCorpus c tag).1, 0) := by
  have hmain : ∀ e ∈ (mergeRunCorpus c sources target).1, ∀ s ∈ sources, s ∉ e.2 := by
    apply mergeFold_no_sources htgt (mergeMatchedPaths c sources) (c, 0) hnd
    intro e he
    by_cases hsrc : ∀ s ∈ sources, s ∉ e.2
    · exact Or.inl hsrc
    · push_neg at hsrc
      obtain ⟨s, hs, hse⟩ := hsrc
      exact Or.inr (mem_mergeMatchedPaths he hs hse)
  have hsearch : ∀ s ∈ sources, corpusSearch (mergeRunCorpus c sources target).1 s = [] := by
    intro s hs
    unfold corpusSearch
    rw [List.filter_eq_nil_iff]
    intro e he
    rw [decide_eq_true_eq]
    exact hmain e he s hs
  have hremove_main : ∀ e ∈ (removeRunCorpus c tag).1, tag ∉ e.2 := by
    have hfold : ∀ (its : Corpus) (cw : Corpus × Nat),
        (∀ e ∈ cw.1, tag ∉ e.2 ∨ e.1 ∈ its.map Prod.fst) →
        ∀ e ∈ (its.foldl (fun cw it =>
          (corpusUpdate cw.1 it.1 (it.2.filter (fun t => decide (t ≠ tag))),
           cw.2 + 1)) cw).1, tag ∉ e.2 := by
      intro its
      induction its with
      | nil =>
        intro cw hinv e he
        simp only [List.foldl_nil] at he
        rcases hinv e he with h | h
        · exact h
        · simp at h
      | cons it rest ih =>
        intro cw hinv e he
        simp only [List.foldl_cons] at he
        refine ih _ ?_ e he
        intro e' he'
        rcases mem_corpusUpdate he' with h1 | ⟨h2, h3⟩
        · left
          rw [h1]
          intro hmem
          rw [List.mem_filter, decide_eq_true_eq] at hmem
          exact hmem.2 rfl
        · rcases hinv e' h2 with h | h
          · exact Or.inl h
          · rw [List.map_cons] at h
            rcases List.mem_cons.mp h with hcase | hcase
            · exact absurd hcase h3
            · exact Or.inr hcase
    apply hfold (corpusSearch c tag) (c, 0)
    intro e he
    by_cases hmem : tag ∈ e.2
    · right
      rw [List.mem_map]
      refine ⟨e, ?_, rfl⟩
      unfold corpusSearch
      rw [List.mem_filter, decide_eq_true_eq]
      exact ⟨he, hmem⟩
    · exact Or.inl hmem
  have hremove_search : corpusSearch (removeRunCorpus c tag).1 tag = [] := by
    unfold corpusSearch
    rw [List.filter_eq_nil_iff]
    intro e he
    rw [decide_eq_true_eq]
    exact hremove_main e he
  refine ⟨hsearch, ?_, hremove_search, ?_⟩
  · set c1 := (mergeRunCorpus c sources target).1 with hc1
    show mergeRunCorpus c1 sources target = (c1, 0)
    unfold mergeRunCorpus mergeMatchedPaths
    rw [foldl_search_nil hsearch]
    rfl
  · set c2 := (removeRunCorpus c tag).1 with hc2
    show removeRunCorpus c2 tag = (c2, 0)
    unfold removeRunCorpus
    rw [hremove_search]
    rfl

/-- Counterexample to C8 as stated: running `merge-tags A A` (the target
equal to the single source) over a one-item corpus performs no writes and
leaves the item carrying `A`, so the second run's search still finds that
item — contradicting "the second run's search finds zero items carrying any
source tag". -/
theorem C8_counterexample :
    (mergeRunCorpus [("p", ["A", "x"])] ["A"] "A").1 = [("p", ["A", "x"])]
  ∧ corpusSearch (mergeRunCorpus [("p", ["A", "x"])] ["A"] "A").1 "A"
      = [("p", ["A", "x"])]
  ∧ (mergeRunCorpus [("p", ["A", "x"])] ["A"] "A").2 = 0 := by
  refine ⟨rfl, rfl, rfl⟩

/-- Witness for the amended C8 at a concrete input: after merging
`swim`/`swimming` into `pool` over a two-item corpus, the second search for
`swim` finds nothing; a second remove run performs zero writes. -/
theorem C8_witness :
    corpusSearch (mergeRunCorpus [("p", ["swim", "x"]), ("q", ["swimming"])]
        ["swim", "swimming"] "pool").1 "swim" = []
  ∧ removeRunCorpus
        (removeRunCorpus [("p", ["swim", "x"]), ("q", ["swimming"])] "swim").1 "swim"
      = ((removeRunCorpus [("p", ["swim", "x"]), ("q", ["swimming"])] "swim").1, 0) := by
  have h := C8_idempotent_amended [("p", ["swim", "x"]), ("q", ["swimming"])]
    ["swim", "swimming"] "pool" "swim" (by decide) (by decide)
  exact ⟨h.1 "swim" (by decide), h.2.2.2⟩

end PloneShell
